import Mathlib

/-!
# LTL formula model and closure engine (package `ltl`)

A shallow embedding of `src/ltl/ltl.go` and `src/ltl/conjunction.go`.

Go interfaces become a closed inductive type `Node`; the interface assertions
`node.(AP)`, `node.(True)`, `node.(Not)`, `node.(And)`, `node.(UnaryNode)` and
`node.(BinaryNode)` become pattern matches on its constructors.  A Go `panic`
is an explicit result (`none`, or `Outcome.panic`).
-/

namespace ltl

/-- Modelled from the spec: the node kinds, whose type declarations (all but `And`) are not
part of the sources at hand.  Section 3 lists "atomic proposition, boolean constant true,
negation, conjunction (disjunction/implication defined as derived forms), next-step, until",
section 6 adds always and eventually, and a "reference" indirects into the reference table.
`Not`, `Next`, `Always` and `Eventually` implement `UnaryNode`; `And`, `Or`, `Impl` and `Until`
implement `BinaryNode`; `Ref` is a node that is neither a leaf, nor unary, nor binary. -/
inductive Node where
  | AP (name : String)
  | True
  | Not (child : Node)
  | Next (child : Node)
  | Always (child : Node)
  | Eventually (child : Node)
  | And (LHS RHS : Node)
  | Or (LHS RHS : Node)
  | Impl (LHS RHS : Node)
  | Until (LHS RHS : Node)
  | Ref (id : Nat)
  deriving DecidableEq, Repr

/-- The interface assertion `node.(UnaryNode)` together with `ChildNode()`. -/
def ChildNode : Node → Option Node
  | .Not c => some c
  | .Next c => some c
  | .Always c => some c
  | .Eventually c => some c
  | _ => none

/-- The interface assertion `node.(BinaryNode)` together with `LHSNode()`
(`src/ltl/conjunction.go`, lines 16-18 for `And`). -/
def LHSNode : Node → Option Node
  | .And l _ => some l
  | .Or l _ => some l
  | .Impl l _ => some l
  | .Until l _ => some l
  | _ => none

/-- The interface assertion `node.(BinaryNode)` together with `RHSNode()`
(`src/ltl/conjunction.go`, lines 20-22 for `And`). -/
def RHSNode : Node → Option Node
  | .And _ r => some r
  | .Or _ r => some r
  | .Impl _ r => some r
  | .Until _ r => some r
  | _ => none

/-- Whether `_, ok := node.(BinaryNode)` succeeds. -/
def isBinaryNode (n : Node) : Bool := (LHSNode n).isSome

/-- Whether `_, ok := node.(UnaryNode)` succeeds. -/
def isUnaryNode (n : Node) : Bool := (ChildNode n).isSome

/-- `Negate` (`src/ltl/ltl.go`, lines 69-76): a negation gives back its child, every other
node is wrapped in `Not`. -/
def Negate : Node → Node
  | .Not child => child
  | node => .Not node

/-- `SameAs`.  The `And` receiver is `src/ltl/conjunction.go`, lines 8-14.
Modelled from the spec: the `SameAs` methods of the other kinds, which are not part of the
sources at hand, after section 4.1: "structural equality, recursing through children". -/
def Node.SameAs : Node → Node → Bool
  | .And l r, .And l2 r2 => l.SameAs l2 && r.SameAs r2
  | .And _ _, _ => false
  | .AP a, .AP b => a == b
  | .True, .True => true
  | .Not c, .Not c2 => c.SameAs c2
  | .Next c, .Next c2 => c.SameAs c2
  | .Always c, .Always c2 => c.SameAs c2
  | .Eventually c, .Eventually c2 => c.SameAs c2
  | .Or l r, .Or l2 r2 => l.SameAs l2 && r.SameAs r2
  | .Impl l r, .Impl l2 r2 => l.SameAs l2 && r.SameAs r2
  | .Until l r, .Until l2 r2 => l.SameAs l2 && r.SameAs r2
  | .Ref i, .Ref j => i == j
  | _, _ => false

/-- A node of the form `Not{Not{x}}`. -/
def isDoubleNegation : Node → Bool
  | .Not (.Not _) => true
  | _ => false

/-- The maximal sub-trees of a conjunction tree that are not conjunctions themselves. -/
def conjunctionLeaves : Node → List Node
  | .And l r => conjunctionLeaves l ++ conjunctionLeaves r
  | n => [n]

/-! ## Rendering -/

/-- `binaryNodeString` (`src/ltl/ltl.go`, lines 52-67).  The receiver `b` enters through its
two accessors `b.LHSNode()` and `b.RHSNode()`; `str` is the dynamically dispatched `String()`
method that `fmt` calls for the verb `%v` (only `And.String` is part of the sources). -/
def binaryNodeString (str : Node → String) (LHS RHS : Node) (op : String) : String :=
  let sb := ""
  let sb := if isBinaryNode LHS then sb ++ ("(" ++ str LHS ++ ")") else sb ++ str LHS
  let sb := sb ++ (" " ++ op ++ " ")
  let sb := if isBinaryNode RHS then sb ++ ("(" ++ str RHS ++ ")") else sb ++ str RHS
  sb

/-- `And.String` (`src/ltl/conjunction.go`, lines 24-26) for the conjunction `And{LHS, RHS}`. -/
def AndString (str : Node → String) (LHS RHS : Node) : String :=
  binaryNodeString str LHS RHS "&"

/-! ## Sets of nodes -/

/-- Modelled from the spec: the type `Set`, whose declaration is not part of the sources at
hand.  The code builds it with `make(Set, 0)`, ranges over its keys and inserts in place, so it
is a Go map keyed by nodes; section 3 calls it "a set of formula nodes (no duplicates,
order-irrelevant)".  It is kept here as the list of its keys, without repetition. -/
abbrev Set := List Node

/-- Modelled from the spec: `Set.Add`, which inserts a node unless it is already a key, and
hands back the set. -/
def Set.Add (s : Set) (n : Node) : Set :=
  if n ∈ s then s else s ++ [n]

/-- `auxFindAtomicPropositions` (`src/ltl/ltl.go`, lines 85-97); `none` is the panic
"unknown ltl node". -/
def auxFindAtomicPropositions : Node → Set → Option Set
  | .AP a, acc => some (Set.Add acc (.AP a))
  | .True, acc => some acc
  | .Not c, acc => auxFindAtomicPropositions c acc
  | .Next c, acc => auxFindAtomicPropositions c acc
  | .Always c, acc => auxFindAtomicPropositions c acc
  | .Eventually c, acc => auxFindAtomicPropositions c acc
  | .And l r, acc => (auxFindAtomicPropositions l acc).bind (auxFindAtomicPropositions r)
  | .Or l r, acc => (auxFindAtomicPropositions l acc).bind (auxFindAtomicPropositions r)
  | .Impl l r, acc => (auxFindAtomicPropositions l acc).bind (auxFindAtomicPropositions r)
  | .Until l r, acc => (auxFindAtomicPropositions l acc).bind (auxFindAtomicPropositions r)
  | .Ref _, _ => none

/-- `FindAtomicPropositions` (`src/ltl/ltl.go`, lines 78-83). -/
def FindAtomicPropositions (node : Node) : Option Set :=
  auxFindAtomicPropositions node []

/-- `auxSubformulae` (`src/ltl/ltl.go`, lines 117-131); `none` is the panic
"unknown ltl node". -/
def auxSubformulae : Node → Set → Option Set
  | .AP a, acc => some (Set.Add acc (.AP a))
  | .True, acc => some (Set.Add acc .True)
  | .Not c, acc => auxSubformulae c (Set.Add acc (.Not c))
  | .Next c, acc => auxSubformulae c (Set.Add acc (.Next c))
  | .Always c, acc => auxSubformulae c (Set.Add acc (.Always c))
  | .Eventually c, acc => auxSubformulae c (Set.Add acc (.Eventually c))
  | .And l r, acc => (auxSubformulae l (Set.Add acc (.And l r))).bind (auxSubformulae r)
  | .Or l r, acc => (auxSubformulae l (Set.Add acc (.Or l r))).bind (auxSubformulae r)
  | .Impl l r, acc => (auxSubformulae l (Set.Add acc (.Impl l r))).bind (auxSubformulae r)
  | .Until l r, acc => (auxSubformulae l (Set.Add acc (.Until l r))).bind (auxSubformulae r)
  | .Ref _, _ => none

/-- `Subformulae` (`src/ltl/ltl.go`, lines 111-115). -/
def Subformulae (node : Node) : Option Set :=
  auxSubformulae node []

/-- The loop `for s := range sub { sub.Add(Negate(s)) }` of `Closure`, run along the
sequence of keys that the `range` statement produces. -/
def rangeNegate : List Node → Set → Set
  | [], sub => sub
  | s :: rest, sub => rangeNegate rest (Set.Add sub (Negate s))

/-- What Go allows a `range` over a map to produce while the loop body inserts into that
map: every key produced is in the map at that moment and has not been produced before
(`seen`).  Keys inserted during the loop may be produced or skipped. -/
def producible : List Node → Set → List Node → Bool
  | _, _, [] => true
  | seen, cur, s :: rest =>
    decide (s ∈ cur) && !decide (s ∈ seen) && producible (s :: seen) (Set.Add cur (Negate s)) rest

/-- An admissible run of the `range` statement over the map `sub`: a producible sequence
that contains every key the map held when the loop started. -/
def admissible (sub : Set) (visit : List Node) : Bool :=
  producible [] sub visit && sub.all (fun s => decide (s ∈ visit))

/-- `Closure` (`src/ltl/ltl.go`, lines 99-109).  `visit` is the choice the Go runtime makes
for the `range` statement: the sequence of keys produced, given the map at loop start. -/
def Closure (visit : Set → List Node) (node : Node) : Option Set :=
  match Subformulae node with
  | none => none
  | some sub => some (rangeNegate (visit sub) sub)

/-- The run of `range` that produces exactly the keys present at loop start. -/
def visitInitial : Set → List Node := fun sub => sub

/-- The run of `range` that also produces every key inserted during the loop: each key is
followed by its negation if that one is new. -/
def visitAll (sub : Set) : List Node :=
  sub.flatMap (fun s => if Negate s ∈ sub then [s] else [s, Negate s])

/-- A formula "built from atomic propositions, True, unary and binary nodes". -/
def wellFormed : Node → Bool
  | .AP _ => true
  | .True => true
  | .Not c => wellFormed c
  | .Next c => wellFormed c
  | .Always c => wellFormed c
  | .Eventually c => wellFormed c
  | .And l r => wellFormed l && wellFormed r
  | .Or l r => wellFormed l && wellFormed r
  | .Impl l r => wellFormed l && wellFormed r
  | .Until l r => wellFormed l && wellFormed r
  | .Ref _ => false

/-- The nodes one step below a node: the `ChildNode()` of a unary node, the `LHSNode()` and
`RHSNode()` of a binary node. -/
def children (n : Node) : List Node :=
  (ChildNode n).toList ++ (LHSNode n).toList ++ (RHSNode n).toList

/-- Whether `x` is reachable from `phi` by repeatedly taking children (zero or more times). -/
def Reachable (phi x : Node) : Prop :=
  Relation.ReflTransGen (fun a b => b ∈ children a) phi x

/-- Whether `_, ok := node.(AP)` succeeds. -/
def isAP : Node → Bool
  | .AP _ => true
  | _ => false

/-! ## Propositional satisfaction -/

/-- The error values of the package (`src/ltl/ltl.go`, lines 9-13). -/
inductive Error where
  | ErrNotPropositional
  | ErrCompile
  deriving DecidableEq, Repr

/-- A value handed to `panic`: one of the package errors, or anything else. -/
inductive PanicValue where
  | error (e : Error)
  | other (msg : String)
  deriving DecidableEq, Repr

/-- How a Go call ends: it returns, or it panics. -/
inductive Outcome (α : Type) where
  | ret (a : α)
  | panic (v : PanicValue)
  deriving Repr

/-- `Satisfied` (`src/ltl/ltl.go`, lines 133-146).  `impl phi` is the assertion
`phi.(Satisfiable)`: `none` when `phi` has no method `Satisfied`, else that method (the
methods themselves are not part of the sources).  When the method panics the named results
`sat, err` still hold their zero values `false, nil`; the deferred function recovers every
panic and sets `err` only for `ErrNotPropositional`. -/
def Satisfied (impl : Node → Option (Set → Outcome Bool)) (phi : Node) (set : Set) :
    Outcome (Bool × Option Error) :=
  let body : Outcome (Bool × Option Error) :=
    match impl phi with
    | some p =>
      match p set with
      | .ret b => .ret (b, none)
      | .panic v => .panic v
    | none => .ret (false, some .ErrNotPropositional)
  match body with
  | .ret res => .ret res
  | .panic r =>
    if r = .error .ErrNotPropositional then .ret (false, some .ErrNotPropositional)
    else .ret (false, none)

/-- A dispatch table used to evaluate `Satisfied` on concrete inputs: atomic propositions
are looked up in the set, `True` holds, `Next` panics with `ErrNotPropositional`, `Always`
panics with another value, and the remaining kinds have no method. -/
def sampleImpl : Node → Option (Set → Outcome Bool)
  | .AP a => some (fun set => .ret (decide (Node.AP a ∈ set)))
  | .True => some (fun _ => .ret true)
  | .Next _ => some (fun _ => .panic (.error .ErrNotPropositional))
  | .Always _ => some (fun _ => .panic (.other "index out of range"))
  | _ => none

/-! ## Size of a formula -/

/-- Modelled from the spec: the method `Len()` of the interface `Node` (`src/ltl/ltl.go`,
line 20), of which no implementation is part of the sources at hand; section 4.1 describes
it as "node count, used to size closures". -/
def Node.Len : Node → Nat
  | .AP _ => 1
  | .True => 1
  | .Not c => 1 + c.Len
  | .Next c => 1 + c.Len
  | .Always c => 1 + c.Len
  | .Eventually c => 1 + c.Len
  | .And l r => 1 + l.Len + r.Len
  | .Or l r => 1 + l.Len + r.Len
  | .Impl l r => 1 + l.Len + r.Len
  | .Until l r => 1 + l.Len + r.Len
  | .Ref _ => 1

end ltl

/-! # Büchi automata (packages `ba` and `gnba`)

`src/systems/gnba/gnba.go` imports the package `ba`, which is not part of the sources at
hand.  State objects live in a heap and are named by their address; `none` is the `nil`
pointer. -/

namespace ba

/-- A value of type `*State`: the address of a state object, or `nil`. -/
abbrev Ptr := Option Nat

/-- Modelled from the spec: the type `Transition` of the missing package `ba`.  The code reads
its fields `Label` and `State`; section 3: a transition is "labeled with the propositional
constraint (the atomic-proposition subset) required to take it, pointing to a target State". -/
structure Transition where
  State : Ptr
  Label : ltl.Set
  deriving DecidableEq, Repr

/-- Modelled from the spec: the type `State` of the missing package `ba`.  The code reads its
fields `ElementarySet` and `Transitions`; section 3: "identity = its elementary set; owns an
ordered list of outgoing Transitions". -/
structure State where
  ElementarySet : ltl.Set
  Transitions : List Transition
  deriving DecidableEq, Repr

/-- The state objects allocated so far; the object at address `a` is the entry `a`. -/
abbrev Heap := List State

/-- The dereference `*p`; `none` is the panic on a `nil` pointer. -/
def deref (h : Heap) : Ptr → Option State
  | none => none
  | some a => h[a]?

/-- Modelled from the spec: the type `StateSet` of the missing package `ba`, "a set of States
(membership by identity)"; the code ranges over its keys, so it is a Go map keyed by
`*State`, kept here as the list of its keys without repetition. -/
abbrev StateSet := List Ptr

/-- Modelled from the spec: `NewStateSet`, the empty set. -/
def NewStateSet : StateSet := []

/-- Modelled from the spec: `StateSet.Add`, insertion of a key. -/
def StateSet.Add (s : StateSet) (p : Ptr) : StateSet :=
  if p ∈ s then s else s ++ [p]

/-- Modelled from the spec: `StateSet.Contains`, "membership by identity". -/
def StateSet.Contains (s : StateSet) (p : Ptr) : Bool :=
  decide (p ∈ s)

/-- Modelled from the spec: the type `RenameTable` of the missing package `ba`, the Go map
"old-state → new-state"; it is only ever assigned to and looked up, and a lookup of a missing
key gives `nil`. -/
abbrev RenameTable := Ptr → Ptr

/-- The empty map `make(ba.RenameTable)`. -/
def RenameTable.empty : RenameTable := fun _ => none

/-- The map assignment `rt[old] = new`. -/
def RenameTable.set (rt : RenameTable) (old new : Ptr) : RenameTable :=
  fun p => if p = old then new else rt p

/-- Modelled from the spec: `StateSet.Copy(rt)`, a new set holding the renamed members
(section 3: the rename table "supports structural copies without aliasing the original"). -/
def StateSet.Copy (s : StateSet) (rt : RenameTable) : StateSet :=
  s.foldl (fun acc p => StateSet.Add acc (rt p)) NewStateSet

/-- Modelled from the spec: `State.Copy()`, a new state object with the same elementary set
and its own list of the same transitions, which still point to the old targets. -/
def State.Copy (s : State) : State :=
  { ElementarySet := s.ElementarySet, Transitions := s.Transitions }

/-- Modelled from the spec: `State.Rename(rt)`, which redirects the target of every
transition of the state through the rename table. -/
def State.Rename (s : State) (rt : RenameTable) : State :=
  { s with Transitions := s.Transitions.map (fun t => { t with State := rt t.State }) }

end ba

namespace gnba

open ba

/-- `GNBA` (`src/systems/gnba/gnba.go`, lines 10-15). -/
structure GNBA where
  States : List Ptr
  StartingStates : StateSet
  FinalStates : List StateSet
  deriving DecidableEq, Repr

/-- `NewGNBA` (`src/systems/gnba/gnba.go`, lines 17-24). -/
def NewGNBA : GNBA :=
  { States := [], StartingStates := NewStateSet, FinalStates := [] }

/-- The loop of `IsAcceptanceState` from index `i` on. -/
def isAcceptanceFrom (state : Ptr) : Nat → List StateSet → Int × Bool
  | _, [] => (-1, false)
  | i, s :: rest =>
    if StateSet.Contains s state then ((i : Int), true) else isAcceptanceFrom state (i + 1) rest

/-- `GNBA.IsAcceptanceState` (`src/systems/gnba/gnba.go`, lines 26-34). -/
def GNBA.IsAcceptanceState (g : GNBA) (state : Ptr) : Int × Bool :=
  isAcceptanceFrom state 0 g.FinalStates

/-- `GNBA.IsStartingState` (`src/systems/gnba/gnba.go`, lines 36-39). -/
def GNBA.IsStartingState (g : GNBA) (state : Ptr) : Bool :=
  StateSet.Contains g.StartingStates state

/-- The loop of `HasState`. -/
def hasStateIn (state : Ptr) : List Ptr → Bool
  | [] => false
  | s :: rest => if s = state then true else hasStateIn state rest

/-- `GNBA.HasState` (`src/systems/gnba/gnba.go`, lines 41-49). -/
def GNBA.HasState (g : GNBA) (state : Ptr) : Bool :=
  hasStateIn state g.States

/-- The loop of `FindStateIndex` from index `i` on. -/
def findStateIndexFrom (state : Ptr) : Nat → List Ptr → Int
  | _, [] => -1
  | i, s :: rest => if s = state then (i : Int) else findStateIndexFrom state (i + 1) rest

/-- `GNBA.FindStateIndex` (`src/systems/gnba/gnba.go`, lines 51-59). -/
def GNBA.FindStateIndex (g : GNBA) (state : Ptr) : Int :=
  findStateIndexFrom state 0 g.States

/-- The first loop of `Copy` (`src/systems/gnba/gnba.go`, lines 67-72): every state is
copied into a new object, whose address is the next free one, entered in the rename table
and appended to the states of the copy.  `none` is the panic on a `nil` state. -/
def copyStates : List Ptr → Heap → RenameTable → List Ptr →
    Option (Heap × RenameTable × List Ptr)
  | [], h, rt, states => some (h, rt, states)
  | s :: rest, h, rt, states =>
    match deref h s with
    | none => none
    | some obj =>
      let copy : Ptr := some h.length
      copyStates rest (h ++ [obj.Copy]) (rt.set s copy) (states ++ [copy])

/-- The second loop of `Copy` (`src/systems/gnba/gnba.go`, lines 74-77): the transitions of
every state of the copy are redirected through the rename table, in place. -/
def renameStates (rt : RenameTable) : List Ptr → Heap → Option Heap
  | [], h => some h
  | s :: rest, h =>
    match s, deref h s with
    | some a, some obj => renameStates rt rest (h.set a (obj.Rename rt))
    | _, _ => none

/-- `GNBA.Copy` (`src/systems/gnba/gnba.go`, lines 61-92), run in the heap `h`: the result is
the heap after the call and the copy.  The third loop ranges over the map
`g.StartingStates`, here in the order of its list of keys; it only inserts into another map,
so the order of the keys does not change the set that is built. -/
def GNBA.Copy (h : Heap) (g : GNBA) : Option (Heap × GNBA) :=
  let gnba := NewGNBA
  let rt := RenameTable.empty
  match copyStates g.States h rt gnba.States with
  | none => none
  | some (h, rt, states) =>
    let gnba := { gnba with States := states }
    match renameStates rt gnba.States h with
    | none => none
    | some h =>
      let gnba := { gnba with
        StartingStates :=
          g.StartingStates.foldl (fun acc s => StateSet.Add acc (rt s)) gnba.StartingStates }
      let accSet := g.FinalStates.foldl (fun acc s => acc ++ [StateSet.Copy s rt]) []
      let gnba := { gnba with FinalStates := accSet }
      some (h, gnba)

/-- The inner loop of `String` (`src/systems/gnba/gnba.go`, lines 109-111); `showSet` is the
rendering of an `ltl.Set` under the verb `%s`, which is not part of the sources at hand. -/
def transitionLines (showSet : ltl.Set → String) (h : Heap) :
    List Transition → String → Option String
  | [], sb => some sb
  | t :: rest, sb =>
    match deref h t.State with
    | none => none
    | some target =>
      transitionLines showSet h rest
        (sb ++ ("\t" ++ showSet t.Label ++ "\t-->\t" ++ showSet target.ElementarySet ++ "\n"))

/-- The outer loop of `String` (`src/systems/gnba/gnba.go`, lines 96-112). -/
def stateLines (showSet : ltl.Set → String) (h : Heap) (g : GNBA) :
    List Ptr → String → Option String
  | [], sb => some sb
  | s :: rest, sb =>
    match deref h s with
    | none => none
    | some obj =>
      let pre := if g.IsStartingState s then ">" else ""
      let suf :=
        match g.IsAcceptanceState s with
        | (i, true) => "\x7b" ++ toString i ++ "\x7d"
        | (_, false) => ""
      let sb := sb ++ (pre ++ showSet obj.ElementarySet ++ suf ++ "\n")
      match transitionLines showSet h obj.Transitions sb with
      | none => none
      | some sb => stateLines showSet h g rest sb

/-- `GNBA.String` (`src/systems/gnba/gnba.go`, lines 94-115); `none` is the panic on a `nil`
state or transition target. -/
def GNBA.String (showSet : ltl.Set → String) (h : Heap) (g : GNBA) : Option String :=
  stateLines showSet h g g.States ""

/-- The dump of the transitions as the amended claim C17 words it: one line
`label --> target elementary set` per outgoing transition, in order. -/
def transitionsDump (showSet : ltl.Set → String) (h : Heap) : List Transition → Option String
  | [] => some ""
  | t :: rest =>
    match deref h t.State, transitionsDump showSet h rest with
    | some target, some tail =>
      some ("\t" ++ showSet t.Label ++ "\t-->\t" ++ showSet target.ElementarySet ++ "\n" ++ tail)
    | _, _ => none

/-- The dump of one state as the amended claim C17 words it: the elementary set, with `>` in
front exactly when the state is a starting state, followed by the index of the first
acceptance set that holds the state, in braces, when there is one, and then the lines of the
transitions. -/
def stateDump (showSet : ltl.Set → String) (h : Heap) (g : GNBA) (p : Ptr) : Option String :=
  match deref h p with
  | none => none
  | some obj =>
    match transitionsDump showSet h obj.Transitions with
    | none => none
    | some lines =>
      some ((if p ∈ g.StartingStates then ">" else "") ++ showSet obj.ElementarySet ++
        (match g.FinalStates.findIdx? (fun S => decide (p ∈ S)) with
          | some i => "\x7b" ++ toString i ++ "\x7d"
          | none => "") ++ "\n" ++ lines)

/-- The dump of the automaton as the amended claim C17 words it: the dumps of its states, in
order. -/
def statesDump (showSet : ltl.Set → String) (h : Heap) (g : GNBA) : List Ptr → Option String
  | [] => some ""
  | p :: rest =>
    match stateDump showSet h g p, statesDump showSet h g rest with
    | some first, some tail => some (first ++ tail)
    | _, _ => none

/-- Every state of `g` is a pointer, other than `nil`, to an object of the heap. -/
def allocated (h : Heap) (g : GNBA) : Bool :=
  g.States.all (fun p => (deref h p).isSome)

/-- The starting states, the members of the acceptance sets and the targets of the
transitions of the states of `g` all belong to `g.States`. -/
def closed (h : Heap) (g : GNBA) : Bool :=
  g.StartingStates.all (fun p => decide (p ∈ g.States)) &&
  g.FinalStates.all (fun S => S.all (fun p => decide (p ∈ g.States))) &&
  g.States.all (fun p =>
    match deref h p with
    | some obj => obj.Transitions.all (fun t => decide (t.State ∈ g.States))
    | none => true)

/-- Whether the state `p` has a transition labelled `L` to the state `q`. -/
def hasTransition (h : Heap) (p : Ptr) (L : ltl.Set) (q : Ptr) : Bool :=
  match deref h p with
  | some obj => obj.Transitions.any (fun t => decide (t.Label = L) && decide (t.State = q))
  | none => false

/-- The rename table after the first loop of `Copy` has run over the states at the addresses
`as`, the first copy being allocated at address `k`. -/
def rtAfter : List Nat → Nat → RenameTable → RenameTable
  | [], _, rt => rt
  | a :: rest, k, rt => rtAfter rest (k + 1) (RenameTable.set rt (some a) (some k))

/-- An automaton with two states at the addresses 0 and 1: state 0 is the starting state and
has a transition to itself and one to state 1, state 1 is accepting and loops. -/
def twoStateGNBA : GNBA :=
  { States := [some 0, some 1], StartingStates := [some 0], FinalStates := [[some 1]] }

/-- The heap of `twoStateGNBA`. -/
def twoStateHeap : Heap :=
  [{ ElementarySet := [.AP "a"],
     Transitions := [{ State := some 0, Label := [.AP "a"] }, { State := some 1, Label := [] }] },
   { ElementarySet := [.AP "b"], Transitions := [{ State := some 1, Label := [.AP "b"] }] }]

/-- A one-state automaton whose state belongs to the acceptance sets 0 and 1. -/
def sampleGNBA : GNBA :=
  { States := [some 0], StartingStates := [], FinalStates := [[some 0], [some 0]] }

/-- The heap of `sampleGNBA`: one state object without transitions. -/
def sampleHeap : Heap :=
  [{ ElementarySet := [], Transitions := [] }]

end gnba

/-! # The repository (package `repo`)

Of this package only `src/repo/exam_test.go` is part of the sources at hand; the repository
itself is modelled from sections 3 and 4.7 of the specification. -/

namespace repo

/-- Modelled from the spec: `Identity`, "an opaque, comparable subject token (e.g. a user
name)". -/
abbrev Identity := String

/-- Modelled from the spec: a policy attached to a state, a formula together with the mark
"self-referential" ("applies to this node and its dependents"), which the policy text
`self -> ...` sets. -/
structure Policy where
  self : Bool
  formula : ltl.Node
  deriving DecidableEq, Repr

/-- Modelled from the spec: `State`, a repository node: "a unique node, a set of dependency
edges to previously stored nodes ..., an originating identity (the user who stored it), and a
set of attached policy formulas".  The node is named by `id`; the identity is absent until
the state is stored. -/
structure State where
  id : Nat
  dependencies : List Nat
  author : Option Identity
  policies : List Policy
  deriving DecidableEq, Repr

/-- Modelled from the spec: `Repo`, "an append-only collection of States, plus the current
user context used to attribute new insertions"; the states are kept oldest first. -/
structure Repo where
  states : List State
  currentUser : Option Identity
  deriving DecidableEq, Repr

/-- Modelled from the spec: the errors of `Put`, "unknown dependency" and "policy violation"
(section 7). -/
inductive PutError where
  | UnknownDependency
  | PolicyViolation
  deriving DecidableEq, Repr

/-- Modelled from the spec: `NewRepo()`, the repository "created empty". -/
def NewRepo : Repo := { states := [], currentUser := none }

/-- Modelled from the spec: `SetCurrentUser(identity)`. -/
def Repo.SetCurrentUser (dr : Repo) (user : Identity) : Repo :=
  { dr with currentUser := some user }

/-- Modelled from the spec: `NewState()`, a node without dependencies and policies; the
fresh node is named by the `id` given. -/
def NewState (id : Nat) : State :=
  { id := id, dependencies := [], author := none, policies := [] }

/-- Modelled from the spec: `addDependency`, a dependency edge to another state. -/
def State.addDependency (s dep : State) : State :=
  { s with dependencies := s.dependencies ++ [dep.id] }

/-- Modelled from the spec: the effect of `AddPolicyString` once the external parser has
turned the text into a policy. -/
def State.AddPolicy (s : State) (p : Policy) : State :=
  { s with policies := s.policies ++ [p] }

/-- Whether a state named `id` is stored in the repository. -/
def Repo.known (dr : Repo) (id : Nat) : Bool :=
  dr.states.any (fun s => decide (s.id = id))

/-- The stored states reached from the states named in `ids` along at most `fuel - 1`
dependency edges. -/
def ancestorsFrom (dr : Repo) : Nat → List Nat → List State
  | 0, _ => []
  | fuel + 1, ids =>
    let direct := dr.states.filter (fun s => decide (s.id ∈ ids))
    direct ++ ancestorsFrom dr fuel (direct.flatMap (fun s => s.dependencies))

/-- Modelled from the spec: "the set of all transitive ancestors of state".  A chain of
dependency edges through stored states is no longer than the number of stored states. -/
def Repo.ancestors (dr : Repo) (state : State) : List State :=
  ancestorsFrom dr dr.states.length state.dependencies

/-- Modelled from the spec: `Put(state)` (section 4.7): it "fails if any dependency is unknown
to the repo; computes the set of all transitive ancestors of state; for every policy attached
to an ancestor that is marked self-referential ..., evaluates that policy with the current
user as subject against the trace rooted at the new state — fails with a confidentiality
violation if unsatisfied; otherwise appends state, attributing it to the current user, and
succeeds".  `eval` is the policy evaluator with its trace extractor (sections 4.3 to 4.6),
given the formula, the subject, the repository and the new state. -/
def Repo.Put (eval : ltl.Node → Option Identity → Repo → State → Bool) (dr : Repo)
    (state : State) : Except PutError Repo :=
  if state.dependencies.all dr.known then
    let inherited := (dr.ancestors state).flatMap (fun a => a.policies.filter (fun p => p.self))
    if inherited.all (fun p => eval p.formula dr.currentUser dr state) then
      .ok { dr with states := dr.states ++ [{ state with author := dr.currentUser }] }
    else
      .error .PolicyViolation
  else
    .error .UnknownDependency

/-- A stored state reached from the states named in `ids` along dependency edges through
stored states: a transitive ancestor of a state whose dependencies are `ids`. -/
inductive ReachesFrom (dr : Repo) (ids : List Nat) : State → Prop where
  | direct (s : State) : s ∈ dr.states → s.id ∈ ids → ReachesFrom dr ids s
  | step (s t : State) : ReachesFrom dr ids s → t ∈ dr.states → t.id ∈ s.dependencies →
      ReachesFrom dr ids t

/-- The atomic predicate `subject() = user(Alice)` of the policy texts `conf1` and `conf2`
of `TestExamConfidentiality` (`src/repo/exam_test.go`, lines 74-75). -/
def subjectIsAlice : ltl.Node := .AP "subject() = user(Alice)"

/-- What section 4.7 asks of the evaluator on that predicate ("evaluates that policy with the
current user as subject"): it holds exactly when the subject is Alice. -/
def evaluatesSubject (eval : ltl.Node → Option Identity → Repo → State → Bool) : Prop :=
  ∀ (subject : Option Identity) (dr : Repo) (state : State),
    eval subjectIsAlice subject dr state = decide (subject = some "Alice")

/-- An evaluator with that property, for the evaluation of `Put` on concrete inputs: an
atomic predicate `subject() = user(Name)` holds when the subject is `Name`; `True`, negation
and conjunction have their propositional meaning. -/
def subjectEval : ltl.Node → Option Identity → Repo → State → Bool
  | .AP name, subject, _, _ =>
    decide (subject.map (fun user => "subject() = user(" ++ user ++ ")") = some name)
  | .True, _, _, _ => true
  | .Not c, subject, dr, s => !subjectEval c subject dr s
  | .And l r, subject, dr, s => subjectEval l subject dr s && subjectEval r subject dr s
  | _, _, _, _ => false

/-- The state `r1` of `TestExamConfidentiality` (`src/repo/exam_test.go`, lines 70-77): its
policy `subject() = user(Alice)` is not self-referential. -/
def r1 : State := (NewState 1).AddPolicy { self := false, formula := subjectIsAlice }

/-- The state `r2` of `TestExamConfidentiality`, with the self-referential policy
`self -> subject() = user(Alice)`. -/
def r2 : State := (NewState 2).AddPolicy { self := true, formula := subjectIsAlice }

/-- The state `r3` of `TestExamConfidentiality`, which depends on `r1` and `r2`. -/
def r3 : State := ((NewState 3).addDependency r1).addDependency r2

/-- The repository of `TestExamConfidentiality` after Alice has stored `r1`, `r2` and `r3`
(`src/repo/exam_test.go`, lines 83-86). -/
def examRepo (eval : ltl.Node → Option Identity → Repo → State → Bool) :
    Except PutError Repo :=
  ((NewRepo.SetCurrentUser "Alice").Put eval r1).bind (fun dr =>
    (dr.Put eval r2).bind (fun dr => dr.Put eval r3))

/-- The repository that `examRepo` evaluates to. -/
def storedRepo : Repo :=
  { states := [{ r1 with author := some "Alice" }, { r2 with author := some "Alice" },
      { r3 with author := some "Alice" }],
    currentUser := some "Alice" }

/-- A new node with two dependencies: the stored state `r2` and a node that was never
stored. -/
def halfKnown : State :=
  { id := 4, dependencies := [2, 99], author := none, policies := [] }

end repo

namespace ltl

/-! ## Negation and structural equality -/

theorem sameAs_refl (n : Node) : n.SameAs n = true := by
  induction n <;> simp_all [Node.SameAs]

theorem sameAs_iff_eq (n m : Node) : n.SameAs m = true ↔ n = m := by
  induction n generalizing m <;> cases m <;> simp_all [Node.SameAs]

/-- C1 fails as stated: for the doubly negated conjunction `Not{Not{And{p, q}}}` the double
application of `Negate` strips both negations, and `And.SameAs` rejects the original. -/
theorem negate_negate_not_sameAs :
    (Negate (Negate (.Not (.Not (.And (.AP "p") (.AP "q")))))).SameAs
      (.Not (.Not (.And (.AP "p") (.AP "q")))) = false := by
  rfl

/-- C1, amended: for every formula that is not of the form `Not{Not{x}}`, applying `Negate`
twice gives the formula back, so `Negate(Negate(phi)).SameAs(phi)` is true. -/
theorem negate_negate_sameAs (phi : Node) (h : isDoubleNegation phi = false) :
    Negate (Negate phi) = phi ∧ (Negate (Negate phi)).SameAs phi = true := by
  have h1 : Negate (Negate phi) = phi := by
    cases phi with
    | Not c => cases c <;> simp_all [Negate, isDoubleNegation]
    | _ => rfl
  exact ⟨h1, by rw [h1]; exact sameAs_refl phi⟩

theorem negate_negate_sameAs_witness :
    isDoubleNegation (.Not (.AP "p")) = false ∧
      (Negate (Negate (.Not (.AP "p"))) = .Not (.AP "p") ∧
        (Negate (Negate (.Not (.AP "p")))).SameAs (.Not (.AP "p")) = true) :=
  ⟨rfl, negate_negate_sameAs (.Not (.AP "p")) rfl⟩

/-- C2: `Negate` returns the child of a negation and wraps every other node in `Not`; when
the argument is not of the form `Not{Not{y}}`, neither is the result. -/
theorem negate_spec (n : Node) :
    (∀ x, n = .Not x → Negate n = x) ∧
    ((∀ x, n ≠ .Not x) → Negate n = .Not n) ∧
    (isDoubleNegation n = false → isDoubleNegation (Negate n) = false) := by
  refine ⟨?_, ?_, ?_⟩
  · intro x hx
    subst hx
    rfl
  · intro hn
    cases n <;> first | rfl | exact absurd rfl (hn _)
  · intro hn
    cases n with
    | Not c => cases c <;> simp_all [Negate, isDoubleNegation]
    | _ => rfl

theorem negate_spec_witness :
    Negate (.Not (.AP "p")) = .AP "p" ∧ Negate (.AP "p") = .Not (.AP "p") ∧
      isDoubleNegation (Negate (.Not (.AP "p"))) = false :=
  ⟨(negate_spec (.Not (.AP "p"))).1 (.AP "p") rfl,
   (negate_spec (.AP "p")).2.1 (fun _ h => Node.noConfusion h),
   (negate_spec (.Not (.AP "p"))).2.2 rfl⟩

/-! ## Rendering and equality of conjunctions -/

/-- C7: the rendering of `And{l, r}` is `P(l)`, then `" & "`, then `P(r)`, where `P(c)` puts
`c.String()` in parentheses exactly when `c` is a binary node. -/
theorem andString_spec (str : Node → String) (l r : Node) :
    AndString str l r =
      (if isBinaryNode l = true then "(" ++ str l ++ ")" else str l) ++ " & " ++
        (if isBinaryNode r = true then "(" ++ str r ++ ")" else str r) := by
  unfold AndString binaryNodeString
  have h : " " ++ "&" ++ " " = " & " := by decide
  by_cases hl : isBinaryNode l = true <;> by_cases hr : isBinaryNode r = true <;>
    simp [hl, hr, h, String.append_assoc]

/-- C8: `And{l, r}.SameAs(n)` holds exactly when `n` is a conjunction whose children are
`SameAs` those of the receiver (so it is false for every other kind of node); on conjunction
trees `SameAs` is reflexive and symmetric as soon as it is so on the leaves of the tree. -/
theorem and_sameAs_spec :
    (∀ l r n : Node, (Node.And l r).SameAs n = true ↔
      ∃ l2 r2, n = .And l2 r2 ∧ l.SameAs l2 = true ∧ r.SameAs r2 = true) ∧
    (∀ t : Node, (∀ a ∈ conjunctionLeaves t, a.SameAs a = true) → t.SameAs t = true) ∧
    (∀ t u : Node, (∀ a ∈ conjunctionLeaves t, ∀ m : Node, a.SameAs m = true → m.SameAs a = true) →
      t.SameAs u = true → u.SameAs t = true) := by
  have hiff : ∀ l r n : Node, (Node.And l r).SameAs n = true ↔
      ∃ l2 r2, n = .And l2 r2 ∧ l.SameAs l2 = true ∧ r.SameAs r2 = true := by
    intro l r n
    cases n with
    | And l2 r2 =>
      simp only [Node.SameAs, Bool.and_eq_true]
      constructor
      · rintro ⟨a, b⟩
        exact ⟨l2, r2, rfl, a, b⟩
      · rintro ⟨l3, r3, h, a, b⟩
        cases h
        exact ⟨a, b⟩
    | _ => simp [Node.SameAs]
  refine ⟨hiff, ?_, ?_⟩
  · intro t
    induction t with
    | And l r ihl ihr =>
      intro h
      rw [hiff]
      refine ⟨l, r, rfl, ihl ?_, ihr ?_⟩
      · intro a ha
        exact h a (by simp [conjunctionLeaves, ha])
      · intro a ha
        exact h a (by simp [conjunctionLeaves, ha])
    | _ =>
      intro h
      exact h _ (by simp [conjunctionLeaves])
  · intro t
    induction t with
    | And l r ihl ihr =>
      intro u h hs
      obtain ⟨l2, r2, rfl, hl, hr⟩ := (hiff l r u).mp hs
      rw [hiff]
      refine ⟨l, r, rfl, ihl l2 ?_ hl, ihr r2 ?_ hr⟩
      · intro a ha
        exact h a (by simp [conjunctionLeaves, ha])
      · intro a ha
        exact h a (by simp [conjunctionLeaves, ha])
    | _ =>
      intro u h hs
      exact h _ (by simp [conjunctionLeaves]) u hs

theorem and_sameAs_spec_witness :
    (Node.And (.AP "p") .True).SameAs (.And (.AP "p") .True) = true ∧
      (Node.And (.AP "p") .True).SameAs (.And (.AP "p") .True) = true :=
  ⟨and_sameAs_spec.2.1 (.And (.AP "p") .True) (fun a _ => sameAs_refl a),
   and_sameAs_spec.2.2 (.And (.AP "p") .True) (.And (.AP "p") .True)
     (fun a _ m h => by rw [(sameAs_iff_eq a m).mp h]; exact sameAs_refl m) rfl⟩

/-! ## Propositional satisfaction -/

theorem satisfied_of_none (impl : Node → Option (Set → Outcome Bool)) (phi : Node) (set : Set)
    (h : impl phi = none) :
    Satisfied impl phi set = .ret (false, some .ErrNotPropositional) := by
  simp [Satisfied, h]

theorem satisfied_of_ret (impl : Node → Option (Set → Outcome Bool)) (phi : Node) (set : Set)
    (p : Set → Outcome Bool) (b : Bool) (h : impl phi = some p) (hp : p set = .ret b) :
    Satisfied impl phi set = .ret (b, none) := by
  simp [Satisfied, h, hp]

theorem satisfied_of_panic (impl : Node → Option (Set → Outcome Bool)) (phi : Node) (set : Set)
    (p : Set → Outcome Bool) (v : PanicValue) (h : impl phi = some p) (hp : p set = .panic v) :
    Satisfied impl phi set =
      .ret (false, if v = .error .ErrNotPropositional then some .ErrNotPropositional else none) := by
  by_cases hv : v = .error .ErrNotPropositional <;> simp [Satisfied, h, hp, hv]

/-- C9: `Satisfied` always returns (no panic reaches the caller); its error is
`ErrNotPropositional` exactly when `phi` has no method `Satisfied` or that method panics with
`ErrNotPropositional`, and then `sat` is false; when the method returns `b`, the result is
`(b, nil)`. -/
theorem satisfied_spec (impl : Node → Option (Set → Outcome Bool)) (phi : Node) (set : Set) :
    ∃ sat err, Satisfied impl phi set = .ret (sat, err) ∧
      (err = some .ErrNotPropositional ↔
        (impl phi = none ∨
          ∃ p, impl phi = some p ∧ p set = .panic (.error .ErrNotPropositional))) ∧
      (err = some .ErrNotPropositional → sat = false) ∧
      (∀ p b, impl phi = some p → p set = .ret b → sat = b ∧ err = none) := by
  cases hi : impl phi with
  | none =>
    rw [satisfied_of_none impl phi set hi]
    exact ⟨false, some .ErrNotPropositional, by simp⟩
  | some p =>
    have hinj : ∀ q : Set → Outcome Bool, some p = some q → q = p := by
      intro q hq
      cases hq
      rfl
    cases hp : p set with
    | ret b =>
      rw [satisfied_of_ret impl phi set p b hi hp]
      refine ⟨b, none, rfl, ?_, ?_, ?_⟩
      · constructor
        · intro h
          cases h
        · rintro (h | ⟨q, hq, hq2⟩)
          · cases h
          · rw [hinj q hq, hp] at hq2
            cases hq2
      · intro h
        cases h
      · intro q c hq hq2
        rw [hinj q hq, hp] at hq2
        cases hq2
        exact ⟨rfl, rfl⟩
    | panic v =>
      rw [satisfied_of_panic impl phi set p v hi hp]
      have hno : ∀ q c, some p = some q → q set = Outcome.ret c → False := by
        intro q c hq hq2
        rw [hinj q hq, hp] at hq2
        cases hq2
      by_cases hv : v = .error .ErrNotPropositional
      · refine ⟨false, some .ErrNotPropositional, by simp [hv], ?_, ?_, ?_⟩
        · exact ⟨fun _ => Or.inr ⟨p, rfl, by rw [hp, hv]⟩, fun _ => rfl⟩
        · intro _
          rfl
        · intro q c hq hq2
          exact (hno q c hq hq2).elim
      · refine ⟨false, none, by simp [hv], ?_, ?_, ?_⟩
        · constructor
          · intro h
            cases h
          · rintro (h | ⟨q, hq, hq2⟩)
            · cases h
            · rw [hinj q hq, hp] at hq2
              cases hq2
              exact (hv rfl).elim
        · intro h
          cases h
        · intro q c hq hq2
          exact (hno q c hq hq2).elim

/-! ## Subformulae -/

theorem mem_Add (s : Set) (n x : Node) : x ∈ Set.Add s n ↔ x ∈ s ∨ x = n := by
  unfold Set.Add
  by_cases h : n ∈ s
  · simp only [h, if_true]
    constructor
    · exact Or.inl
    · rintro (hx | rfl)
      · exact hx
      · exact h
  · simp [h]

theorem reachable_iff (n x : Node) :
    Reachable n x ↔ x = n ∨ ∃ c, c ∈ children n ∧ Reachable c x := by
  unfold Reachable
  rw [Relation.ReflTransGen.cases_head_iff]
  constructor
  · rintro (h | h)
    · exact Or.inl h.symm
    · exact Or.inr h
  · rintro (h | h)
    · exact Or.inl h.symm
    · exact Or.inr h

theorem reachable_child (phi n c : Node) (h : Reachable phi n) (hc : c ∈ children n) :
    Reachable phi c :=
  Relation.ReflTransGen.tail h hc

theorem auxSubformulae_mem (n : Node) :
    ∀ (acc S : Set), auxSubformulae n acc = some S →
      ∀ x, x ∈ S ↔ x ∈ acc ∨ Reachable n x := by
  induction n with
  | AP a =>
    intro acc S h x
    simp only [auxSubformulae, Option.some.injEq] at h
    subst h
    rw [mem_Add, reachable_iff]
    simp [children, ChildNode, LHSNode, RHSNode]
  | True =>
    intro acc S h x
    simp only [auxSubformulae, Option.some.injEq] at h
    subst h
    rw [mem_Add, reachable_iff]
    simp [children, ChildNode, LHSNode, RHSNode]
  | Ref i =>
    intro acc S h
    simp [auxSubformulae] at h
  | Not c ih | Next c ih | Always c ih | Eventually c ih =>
    intro acc S h x
    simp only [auxSubformulae] at h
    conv_rhs => rw [reachable_iff]
    rw [ih _ _ h, mem_Add]
    simp [children, ChildNode, LHSNode, RHSNode, or_assoc]
  | And l r ihl ihr | Or l r ihl ihr | Impl l r ihl ihr | Until l r ihl ihr =>
    intro acc S h x
    simp only [auxSubformulae, Option.bind_eq_some] at h
    obtain ⟨S1, h1, h2⟩ := h
    conv_rhs => rw [reachable_iff]
    rw [ihr _ _ h2, ihl _ _ h1, mem_Add]
    simp [children, ChildNode, LHSNode, RHSNode, or_assoc]

theorem bind_isSome (f g : Set → Option Set) (hf : ∀ acc, ∃ S, f acc = some S)
    (hg : ∀ acc, ∃ S, g acc = some S) (acc : Set) : ∃ S, (f acc).bind g = some S := by
  obtain ⟨S1, h1⟩ := hf acc
  obtain ⟨S2, h2⟩ := hg S1
  exact ⟨S2, by rw [h1, Option.some_bind, h2]⟩

theorem auxSubformulae_isSome (n : Node) (h : wellFormed n = true) :
    ∀ acc : Set, ∃ S, auxSubformulae n acc = some S := by
  induction n with
  | AP a => exact fun acc => ⟨_, rfl⟩
  | True => exact fun acc => ⟨_, rfl⟩
  | Ref i => simp [wellFormed] at h
  | Not c ih | Next c ih | Always c ih | Eventually c ih =>
    intro acc
    simp only [wellFormed] at h
    simpa only [auxSubformulae] using ih h _
  | And l r ihl ihr | Or l r ihl ihr | Impl l r ihl ihr | Until l r ihl ihr =>
    intro acc
    simp only [wellFormed, Bool.and_eq_true] at h
    simp only [auxSubformulae]
    exact bind_isSome _ _ (ihl h.1) (ihr h.2) _

theorem auxSubformulae_none (n : Node) (h : wellFormed n = false) :
    ∀ acc : Set, auxSubformulae n acc = none := by
  induction n with
  | AP a => simp [wellFormed] at h
  | True => simp [wellFormed] at h
  | Ref i => exact fun acc => rfl
  | Not c ih | Next c ih | Always c ih | Eventually c ih =>
    intro acc
    simp only [wellFormed] at h
    simpa only [auxSubformulae] using ih h _
  | And l r ihl ihr | Or l r ihl ihr | Impl l r ihl ihr | Until l r ihl ihr =>
    intro acc
    simp only [wellFormed, Bool.and_eq_false_iff] at h
    simp only [auxSubformulae]
    cases h1 : auxSubformulae l (Set.Add acc _) with
    | none => rfl
    | some S1 =>
      rcases h with h | h
      · rw [ihl h] at h1
        cases h1
      · simpa using ihr h S1

/-- `Subformulae` panics exactly on the formulas that hold a node of unknown kind. -/
theorem subformulae_isSome (phi : Node) : (Subformulae phi).isSome = wellFormed phi := by
  cases h : wellFormed phi with
  | true =>
    obtain ⟨S, hS⟩ := auxSubformulae_isSome phi h []
    simp [Subformulae, hS]
  | false => simp [Subformulae, auxSubformulae_none phi h]

/-- C5: for a formula built from atomic propositions, `True`, unary and binary nodes,
`Subformulae` returns a set whose members are exactly the nodes reachable from the formula
by repeatedly taking children: it holds the formula itself, the child of every unary member
and both children of every binary member, and nothing else. -/
theorem subformulae_spec (phi : Node) (h : wellFormed phi = true) :
    ∃ sub, Subformulae phi = some sub ∧
      (∀ x, x ∈ sub ↔ Reachable phi x) ∧
      phi ∈ sub ∧
      (∀ n c, n ∈ sub → ChildNode n = some c → c ∈ sub) ∧
      (∀ n l, n ∈ sub → LHSNode n = some l → l ∈ sub) ∧
      (∀ n r, n ∈ sub → RHSNode n = some r → r ∈ sub) := by
  obtain ⟨sub, hsub⟩ := auxSubformulae_isSome phi h []
  have hmem : ∀ x, x ∈ sub ↔ Reachable phi x := by
    intro x
    rw [auxSubformulae_mem phi [] sub hsub x]
    simp
  refine ⟨sub, hsub, hmem, (hmem phi).mpr Relation.ReflTransGen.refl, ?_, ?_, ?_⟩
  · intro n c hn hc
    exact (hmem c).mpr (reachable_child phi n c ((hmem n).mp hn) (by simp [children, hc]))
  · intro n l hn hl
    exact (hmem l).mpr (reachable_child phi n l ((hmem n).mp hn) (by simp [children, hl]))
  · intro n r hn hr
    exact (hmem r).mpr (reachable_child phi n r ((hmem n).mp hn) (by simp [children, hr]))

theorem subformulae_spec_witness :
    ∃ sub, Subformulae (.And (.Not (.AP "p")) .True) = some sub ∧
      (∀ x, x ∈ sub ↔ Reachable (.And (.Not (.AP "p")) .True) x) ∧
      Node.And (.Not (.AP "p")) .True ∈ sub ∧
      (∀ n c, n ∈ sub → ChildNode n = some c → c ∈ sub) ∧
      (∀ n l, n ∈ sub → LHSNode n = some l → l ∈ sub) ∧
      (∀ n r, n ∈ sub → RHSNode n = some r → r ∈ sub) :=
  subformulae_spec (.And (.Not (.AP "p")) .True) rfl

/-! ## Closure -/

theorem rangeNegate_mem (visit : List Node) :
    ∀ (cur : Set) (x : Node),
      x ∈ rangeNegate visit cur ↔ x ∈ cur ∨ ∃ s, s ∈ visit ∧ x = Negate s := by
  induction visit with
  | nil =>
    intro cur x
    simp [rangeNegate]
  | cons s rest ih =>
    intro cur x
    simp only [rangeNegate]
    rw [ih, mem_Add]
    constructor
    · rintro ((h | h) | ⟨t, ht, hx⟩)
      · exact Or.inl h
      · exact Or.inr ⟨s, List.mem_cons_self s rest, h⟩
      · exact Or.inr ⟨t, List.mem_cons_of_mem s ht, hx⟩
    · rintro (h | ⟨t, ht, hx⟩)
      · exact Or.inl (Or.inl h)
      · rcases List.mem_cons.mp ht with rfl | ht
        · exact Or.inl (Or.inr hx)
        · exact Or.inr ⟨t, ht, hx⟩

/-- The union of a set that holds the child of each of its negations with the negations of
its members is closed under `Negate`. -/
theorem negate_mem_union (sub : Set) (hsub : ∀ c, Node.Not c ∈ sub → c ∈ sub) (y : Node)
    (hy : y ∈ sub ∨ ∃ s, s ∈ sub ∧ y = Negate s) :
    Negate y ∈ sub ∨ ∃ s, s ∈ sub ∧ Negate y = Negate s := by
  rcases hy with hy | ⟨s, hs, rfl⟩
  · exact Or.inr ⟨y, hy, rfl⟩
  · cases s with
    | Not c => exact Or.inr ⟨c, hsub c hs, rfl⟩
    | _ => exact Or.inl hs

theorem producible_mem (C : Node → Prop) (hC : ∀ y, C y → C (Negate y)) (visit : List Node) :
    ∀ (seen : List Node) (cur : Set), producible seen cur visit = true →
      (∀ y, y ∈ cur → C y) → ∀ s, s ∈ visit → C s := by
  induction visit with
  | nil =>
    intro seen cur _ _ s hs
    cases hs
  | cons t rest ih =>
    intro seen cur hp hcur s hs
    simp only [producible, Bool.and_eq_true, decide_eq_true_eq] at hp
    have ht : C t := hcur t hp.1.1
    rcases List.mem_cons.mp hs with rfl | hs
    · exact ht
    · refine ih (t :: seen) (Set.Add cur (Negate t)) hp.2 ?_ s hs
      intro y hy
      rcases (mem_Add cur (Negate t) y).mp hy with hy | rfl
      · exact hcur y hy
      · exact hC t ht

/-- Whatever keys the `range` statement produces, the loop of `Closure` ends with the
subformulae and their negations, and nothing else. -/
theorem closure_loop_mem (sub : Set) (visit : List Node)
    (hsub : ∀ c, Node.Not c ∈ sub → c ∈ sub) (hadm : admissible sub visit = true) (x : Node) :
    x ∈ rangeNegate visit sub ↔ x ∈ sub ∨ ∃ s, s ∈ sub ∧ x = Negate s := by
  simp only [admissible, Bool.and_eq_true, List.all_eq_true, decide_eq_true_eq] at hadm
  rw [rangeNegate_mem]
  constructor
  · rintro (h | ⟨s, hs, rfl⟩)
    · exact Or.inl h
    · exact negate_mem_union sub hsub s
        (producible_mem (fun y => y ∈ sub ∨ ∃ s, s ∈ sub ∧ y = Negate s)
          (negate_mem_union sub hsub) visit [] sub hadm.1 (fun y hy => Or.inl hy) s hs)
  · rintro (h | ⟨s, hs, rfl⟩)
    · exact Or.inl h
    · exact Or.inr ⟨s, hadm.2 s hs, rfl⟩

theorem subformulae_not_child (phi : Node) (sub : Set) (h : Subformulae phi = some sub)
    (c : Node) (hc : Node.Not c ∈ sub) : c ∈ sub := by
  have hmem := auxSubformulae_mem phi [] sub h
  have h1 : Reachable phi (.Not c) := by simpa using (hmem (.Not c)).mp hc
  exact (hmem c).mpr (Or.inr (reachable_child phi (.Not c) c h1 (by simp [children, ChildNode])))

/-- C4: for every formula without nodes of unknown kind `Closure` returns a set whose
members are exactly the subformulae and the `Negate` of each subformula, whichever keys the
`range` statement produces (the keys inserted during the loop may be visited or skipped). -/
theorem closure_spec (visit : Set → List Node) (phi : Node) (h : wellFormed phi = true)
    (hvisit : ∀ sub, Subformulae phi = some sub → admissible sub (visit sub) = true) :
    ∃ sub S, Subformulae phi = some sub ∧ Closure visit phi = some S ∧
      ∀ x, x ∈ S ↔ x ∈ sub ∨ ∃ s, s ∈ sub ∧ x = Negate s := by
  obtain ⟨sub, hsub⟩ := auxSubformulae_isSome phi h []
  have hS : Subformulae phi = some sub := hsub
  refine ⟨sub, rangeNegate (visit sub) sub, hS, by simp [Closure, hS], ?_⟩
  exact closure_loop_mem sub (visit sub) (subformulae_not_child phi sub hS) (hvisit sub hS)

/-- C3: the set `Closure` returns is closed under `Negate`. -/
theorem closure_negate_closed (visit : Set → List Node) (phi : Node)
    (h : wellFormed phi = true)
    (hvisit : ∀ sub, Subformulae phi = some sub → admissible sub (visit sub) = true) :
    ∃ S, Closure visit phi = some S ∧ ∀ psi, psi ∈ S → Negate psi ∈ S := by
  obtain ⟨sub, hsub⟩ := auxSubformulae_isSome phi h []
  have hS : Subformulae phi = some sub := hsub
  have hmem := closure_loop_mem sub (visit sub) (subformulae_not_child phi sub hS) (hvisit sub hS)
  refine ⟨rangeNegate (visit sub) sub, by simp [Closure, hS], ?_⟩
  intro psi hpsi
  exact (hmem (Negate psi)).mpr
    (negate_mem_union sub (subformulae_not_child phi sub hS) psi ((hmem psi).mp hpsi))

/-- C6: when no subformula of the formula is of the form `Not{Not{x}}`, no member of its
closure is. -/
theorem closure_no_double_negation (visit : Set → List Node) (phi : Node)
    (h : wellFormed phi = true)
    (hvisit : ∀ sub, Subformulae phi = some sub → admissible sub (visit sub) = true)
    (hphi : ∀ sub, Subformulae phi = some sub → ∀ x, x ∈ sub → isDoubleNegation x = false) :
    ∃ S, Closure visit phi = some S ∧ ∀ x, x ∈ S → isDoubleNegation x = false := by
  obtain ⟨sub, hsub⟩ := auxSubformulae_isSome phi h []
  have hS : Subformulae phi = some sub := hsub
  have hmem := closure_loop_mem sub (visit sub) (subformulae_not_child phi sub hS) (hvisit sub hS)
  refine ⟨rangeNegate (visit sub) sub, by simp [Closure, hS], ?_⟩
  intro x hx
  rcases (hmem x).mp hx with hx | ⟨s, hs, rfl⟩
  · exact hphi sub hS x hx
  · have hs2 := hphi sub hS s hs
    cases s with
    | Not c => exact hphi sub hS c (subformulae_not_child phi sub hS c hs)
    | _ => rfl

theorem subformulae_sample :
    Subformulae (.And (.Not (.AP "p")) .True) =
      some [.And (.Not (.AP "p")) .True, .Not (.AP "p"), .AP "p", .True] := by
  decide

theorem closure_spec_witness :
    ∃ sub S, Subformulae (.And (.Not (.AP "p")) .True) = some sub ∧
      Closure visitAll (.And (.Not (.AP "p")) .True) = some S ∧
      ∀ x, x ∈ S ↔ x ∈ sub ∨ ∃ s, s ∈ sub ∧ x = Negate s :=
  closure_spec visitAll (.And (.Not (.AP "p")) .True) rfl
    (fun sub hsub => by
      rw [subformulae_sample] at hsub
      cases hsub
      decide)

theorem closure_negate_closed_witness :
    ∃ S, Closure visitInitial (.And (.Not (.AP "p")) .True) = some S ∧
      ∀ psi, psi ∈ S → Negate psi ∈ S :=
  closure_negate_closed visitInitial (.And (.Not (.AP "p")) .True) rfl
    (fun sub hsub => by
      rw [subformulae_sample] at hsub
      cases hsub
      decide)

theorem closure_no_double_negation_witness :
    ∃ S, Closure visitAll (.And (.Not (.AP "p")) .True) = some S ∧
      ∀ x, x ∈ S → isDoubleNegation x = false :=
  closure_no_double_negation visitAll (.And (.Not (.AP "p")) .True) rfl
    (fun sub hsub => by
      rw [subformulae_sample] at hsub
      cases hsub
      decide)
    (fun sub hsub => by
      rw [subformulae_sample] at hsub
      cases hsub
      decide)

/-! ## Atomic propositions -/

theorem auxFindAtomicPropositions_mem (n : Node) :
    ∀ (acc A : Set), auxFindAtomicPropositions n acc = some A →
      ∀ x, x ∈ A ↔ x ∈ acc ∨ (isAP x = true ∧ Reachable n x) := by
  induction n with
  | AP a =>
    intro acc A h x
    simp only [auxFindAtomicPropositions, Option.some.injEq] at h
    subst h
    rw [mem_Add, reachable_iff]
    simp only [children, ChildNode, LHSNode, RHSNode, Option.toList, List.append_nil,
      List.not_mem_nil, false_and, exists_false, or_false]
    constructor
    · rintro (hx | rfl)
      · exact Or.inl hx
      · exact Or.inr ⟨rfl, rfl⟩
    · rintro (hx | ⟨_, hx⟩)
      · exact Or.inl hx
      · exact Or.inr hx
  | True =>
    intro acc A h x
    simp only [auxFindAtomicPropositions, Option.some.injEq] at h
    subst h
    rw [reachable_iff]
    simp only [children, ChildNode, LHSNode, RHSNode, Option.toList, List.append_nil,
      List.not_mem_nil, false_and, exists_false, or_false]
    constructor
    · exact Or.inl
    · rintro (hx | ⟨hap, rfl⟩)
      · exact hx
      · cases hap
  | Ref i =>
    intro acc A h
    simp [auxFindAtomicPropositions] at h
  | Not c ih | Next c ih | Always c ih | Eventually c ih =>
    intro acc A h x
    simp only [auxFindAtomicPropositions] at h
    conv_rhs => rw [reachable_iff]
    rw [ih _ _ h]
    simp only [children, ChildNode, LHSNode, RHSNode, Option.toList, List.append_nil,
      List.mem_singleton, exists_eq_left]
    constructor
    · rintro (hx | ⟨hap, hx⟩)
      · exact Or.inl hx
      · exact Or.inr ⟨hap, Or.inr hx⟩
    · rintro (hx | ⟨hap, rfl | hx⟩)
      · exact Or.inl hx
      · cases hap
      · exact Or.inr ⟨hap, hx⟩
  | And l r ihl ihr | Or l r ihl ihr | Impl l r ihl ihr | Until l r ihl ihr =>
    intro acc A h x
    simp only [auxFindAtomicPropositions, Option.bind_eq_some] at h
    obtain ⟨A1, h1, h2⟩ := h
    conv_rhs => rw [reachable_iff]
    rw [ihr _ _ h2, ihl _ _ h1]
    simp only [children, ChildNode, LHSNode, RHSNode, Option.toList, List.nil_append,
      List.singleton_append, List.mem_cons, List.mem_singleton, List.not_mem_nil, or_false]
    constructor
    · rintro ((hx | ⟨hap, hx⟩) | ⟨hap, hx⟩)
      · exact Or.inl hx
      · exact Or.inr ⟨hap, Or.inr ⟨l, Or.inl rfl, hx⟩⟩
      · exact Or.inr ⟨hap, Or.inr ⟨r, Or.inr rfl, hx⟩⟩
    · rintro (hx | ⟨hap, rfl | ⟨c, rfl | rfl, hx⟩⟩)
      · exact Or.inl (Or.inl hx)
      · cases hap
      · exact Or.inl (Or.inr ⟨hap, hx⟩)
      · exact Or.inr ⟨hap, hx⟩

theorem auxFindAtomicPropositions_isSome (n : Node) (h : wellFormed n = true) :
    ∀ acc : Set, ∃ A, auxFindAtomicPropositions n acc = some A := by
  induction n with
  | AP a => exact fun acc => ⟨_, rfl⟩
  | True => exact fun acc => ⟨_, rfl⟩
  | Ref i => simp [wellFormed] at h
  | Not c ih | Next c ih | Always c ih | Eventually c ih =>
    intro acc
    simp only [wellFormed] at h
    simp only [auxFindAtomicPropositions]
    exact ih h _
  | And l r ihl ihr | Or l r ihl ihr | Impl l r ihl ihr | Until l r ihl ihr =>
    intro acc
    simp only [wellFormed, Bool.and_eq_true] at h
    simp only [auxFindAtomicPropositions]
    exact bind_isSome _ _ (ihl h.1) (ihr h.2) _

theorem auxFindAtomicPropositions_none (n : Node) (h : wellFormed n = false) :
    ∀ acc : Set, auxFindAtomicPropositions n acc = none := by
  induction n with
  | AP a => simp [wellFormed] at h
  | True => simp [wellFormed] at h
  | Ref i => exact fun acc => rfl
  | Not c ih | Next c ih | Always c ih | Eventually c ih =>
    intro acc
    simp only [wellFormed] at h
    simpa only [auxFindAtomicPropositions] using ih h _
  | And l r ihl ihr | Or l r ihl ihr | Impl l r ihl ihr | Until l r ihl ihr =>
    intro acc
    simp only [wellFormed, Bool.and_eq_false_iff] at h
    simp only [auxFindAtomicPropositions]
    cases h1 : auxFindAtomicPropositions l acc with
    | none => rfl
    | some A1 =>
      rcases h with h | h
      · rw [ihl h] at h1
        cases h1
      · simpa using ihr h A1

/-- `FindAtomicPropositions` panics on the same formulas as `Subformulae`: those that hold a
node of unknown kind. -/
theorem findAtomicPropositions_isSome (phi : Node) :
    (FindAtomicPropositions phi).isSome = (Subformulae phi).isSome := by
  rw [subformulae_isSome]
  cases h : wellFormed phi with
  | true =>
    obtain ⟨A, hA⟩ := auxFindAtomicPropositions_isSome phi h []
    simp [FindAtomicPropositions, hA]
  | false => simp [FindAtomicPropositions, auxFindAtomicPropositions_none phi h]

/-- C10: `FindAtomicPropositions` returns exactly the members of `Subformulae` that are
atomic propositions; every member is an `AP` node, so the set holds neither `True` nor any
compound node. -/
theorem findAtomicPropositions_spec (phi : Node) (h : wellFormed phi = true) :
    ∃ ap sub, FindAtomicPropositions phi = some ap ∧ Subformulae phi = some sub ∧
      (∀ x, x ∈ ap ↔ (x ∈ sub ∧ isAP x = true)) ∧
      (∀ x, x ∈ ap → ∃ name, x = .AP name) ∧
      Node.True ∉ ap ∧
      (∀ x, x ∈ ap → isUnaryNode x = false ∧ isBinaryNode x = false) := by
  obtain ⟨ap, hap⟩ := auxFindAtomicPropositions_isSome phi h []
  obtain ⟨sub, hsub⟩ := auxSubformulae_isSome phi h []
  have hmem : ∀ x, x ∈ ap ↔ (x ∈ sub ∧ isAP x = true) := by
    intro x
    rw [auxFindAtomicPropositions_mem phi [] ap hap x, auxSubformulae_mem phi [] sub hsub x]
    simp [and_comm]
  have hkind : ∀ x, x ∈ ap → ∃ name, x = .AP name := by
    intro x hx
    have := ((hmem x).mp hx).2
    cases x <;> simp_all [isAP]
  refine ⟨ap, sub, hap, hsub, hmem, hkind, ?_, ?_⟩
  · intro hT
    obtain ⟨name, hname⟩ := hkind _ hT
    cases hname
  · intro x hx
    obtain ⟨name, rfl⟩ := hkind x hx
    exact ⟨rfl, rfl⟩

theorem findAtomicPropositions_spec_witness :
    ∃ ap sub, FindAtomicPropositions (.Until (.Not (.AP "a")) (.And (.AP "b") .True)) = some ap ∧
      Subformulae (.Until (.Not (.AP "a")) (.And (.AP "b") .True)) = some sub ∧
      (∀ x, x ∈ ap ↔ (x ∈ sub ∧ isAP x = true)) ∧
      (∀ x, x ∈ ap → ∃ name, x = .AP name) ∧
      Node.True ∉ ap ∧
      (∀ x, x ∈ ap → isUnaryNode x = false ∧ isBinaryNode x = false) :=
  findAtomicPropositions_spec (.Until (.Not (.AP "a")) (.And (.AP "b") .True)) rfl

/-! ## Evaluation on concrete inputs -/

theorem satisfied_samples :
    Satisfied sampleImpl (.AP "a") [.AP "a"] = .ret (true, none) ∧
    Satisfied sampleImpl (.AP "a") [] = .ret (false, none) ∧
    Satisfied sampleImpl (.Until (.AP "a") (.AP "b")) [] =
      .ret (false, some .ErrNotPropositional) ∧
    Satisfied sampleImpl (.Next (.AP "a")) [] = .ret (false, some .ErrNotPropositional) ∧
    Satisfied sampleImpl (.Always (.AP "a")) [] = .ret (false, none) := by
  refine ⟨?_, ?_, ?_, ?_, ?_⟩
  · exact satisfied_of_ret sampleImpl _ _ _ true rfl (by simp)
  · exact satisfied_of_ret sampleImpl _ _ _ false rfl (by simp)
  · exact satisfied_of_none sampleImpl _ _ rfl
  · simp [Satisfied, sampleImpl]
  · simp [Satisfied, sampleImpl]

theorem closure_samples :
    Closure visitInitial (.And (.Not (.AP "p")) .True) =
      some [.And (.Not (.AP "p")) .True, .Not (.AP "p"), .AP "p", .True,
        .Not (.And (.Not (.AP "p")) .True), .Not .True] ∧
    Closure visitAll (.And (.Not (.AP "p")) .True) =
      some [.And (.Not (.AP "p")) .True, .Not (.AP "p"), .AP "p", .True,
        .Not (.And (.Not (.AP "p")) .True), .Not .True] ∧
    Closure visitInitial (.And (.Ref 0) .True) = none ∧
    FindAtomicPropositions (.And (.Not (.AP "p")) .True) = some [.AP "p"] ∧
    AndString (fun _ => "x") (.And .True .True) .True = "(x) & x" := by
  refine ⟨by decide, by decide, by decide, by decide, by decide⟩

end ltl

/-! # Theorems on the automata -/

namespace gnba

open ba

/-! ## Membership queries -/

theorem isAcceptanceFrom_spec (state : Ptr) (fs : List StateSet) :
    ∀ k : Nat,
      (∃ i : Nat, isAcceptanceFrom state k fs = (((k + i : Nat) : Int), true) ∧
        (∃ S : StateSet, fs[i]? = some S ∧ state ∈ S) ∧
        ∀ j : Nat, j < i → ∀ S : StateSet, fs[j]? = some S → state ∉ S) ∨
      (isAcceptanceFrom state k fs = (-1, false) ∧ ∀ (j : Nat) (S : StateSet), fs[j]? = some S → state ∉ S) := by
  induction fs with
  | nil =>
    intro k
    right
    exact ⟨rfl, fun j S h => by simp at h⟩
  | cons S0 rest ih =>
    intro k
    by_cases hc : state ∈ S0
    · left
      refine ⟨0, ?_, ⟨S0, by simp, hc⟩, fun j hj => absurd hj (Nat.not_lt_zero j)⟩
      simp [isAcceptanceFrom, StateSet.Contains, hc]
    · have hstep : isAcceptanceFrom state k (S0 :: rest) = isAcceptanceFrom state (k + 1) rest := by
        simp [isAcceptanceFrom, StateSet.Contains, hc]
      rcases ih (k + 1) with ⟨i, hi, hmem, hleast⟩ | ⟨hnone, hall⟩
      · left
        refine ⟨i + 1, ?_, ?_, ?_⟩
        · rw [hstep, hi]
          congr 2
          omega
        · simpa using hmem
        · intro j hj S hS
          cases j with
          | zero =>
            simp at hS
            subst hS
            exact hc
          | succ j => exact hleast j (by omega) S (by simpa using hS)
      · right
        refine ⟨by rw [hstep, hnone], ?_⟩
        intro j S hS
        cases j with
        | zero =>
          simp at hS
          subst hS
          exact hc
        | succ j => exact hall j S (by simpa using hS)

/-- C13: `IsAcceptanceState(s)` returns `(i, true)` for the least index `i` of an acceptance
set that holds `s` when there is one, and `(-1, false)` exactly when no acceptance set holds
`s`, in particular when there is no acceptance set at all. -/
theorem isAcceptanceState_spec (g : GNBA) (s : Ptr) :
    ((∃ (j : Nat) (S : StateSet), g.FinalStates[j]? = some S ∧ s ∈ S) →
      ∃ i : Nat, g.IsAcceptanceState s = ((i : Int), true) ∧
        (∃ S : StateSet, g.FinalStates[i]? = some S ∧ s ∈ S) ∧
        ∀ j : Nat, j < i → ∀ S : StateSet, g.FinalStates[j]? = some S → s ∉ S) ∧
    (g.IsAcceptanceState s = (-1, false) ↔ ∀ (j : Nat) (S : StateSet), g.FinalStates[j]? = some S → s ∉ S) ∧
    (g.FinalStates = [] → g.IsAcceptanceState s = (-1, false)) := by
  unfold GNBA.IsAcceptanceState
  rcases isAcceptanceFrom_spec s g.FinalStates 0 with ⟨i, hi, hmem, hleast⟩ | ⟨hnone, hall⟩
  · have hi2 : isAcceptanceFrom s 0 g.FinalStates = ((i : Int), true) := by
      simpa using hi
    refine ⟨fun _ => ⟨i, hi2, hmem, hleast⟩, ?_, ?_⟩
    · constructor
      · intro h
        rw [hi2] at h
        simp at h
      · intro h
        obtain ⟨S, hS, hs⟩ := hmem
        exact absurd hs (h i S hS)
    · intro h
      obtain ⟨S, hS, _⟩ := hmem
      rw [h] at hS
      simp at hS
  · refine ⟨?_, ⟨fun _ => hall, fun _ => hnone⟩, fun _ => hnone⟩
    rintro ⟨j, S, hS, hs⟩
    exact absurd hs (hall j S hS)

theorem isAcceptanceState_spec_witness :
    ∃ i : Nat, GNBA.IsAcceptanceState
        { States := [some 0], StartingStates := [], FinalStates := [[], [some 0], [some 0]] }
        (some 0) = ((i : Int), true) ∧
      (∃ S : StateSet, ([[], [some 0], [some 0]] : List StateSet)[i]? = some S ∧ some 0 ∈ S) ∧
      ∀ j : Nat, j < i → ∀ S : StateSet, ([[], [some 0], [some 0]] : List StateSet)[j]? = some S →
        (some 0 : Ptr) ∉ S :=
  (isAcceptanceState_spec
    { States := [some 0], StartingStates := [], FinalStates := [[], [some 0], [some 0]] }
    (some 0)).1 ⟨1, [some 0], rfl, by simp⟩

theorem findStateIndexFrom_spec (state : Ptr) (states : List Ptr) :
    ∀ k : Nat,
      (∃ i : Nat, findStateIndexFrom state k states = ((k + i : Nat) : Int) ∧
        states[i]? = some state ∧ ∀ j : Nat, j < i → states[j]? ≠ some state) ∨
      (findStateIndexFrom state k states = -1 ∧ ∀ j : Nat, states[j]? ≠ some state) := by
  induction states with
  | nil =>
    intro k
    right
    exact ⟨rfl, fun j h => by simp at h⟩
  | cons s0 rest ih =>
    intro k
    by_cases hc : s0 = state
    · left
      refine ⟨0, ?_, by simp [hc], fun j hj => absurd hj (Nat.not_lt_zero j)⟩
      simp [findStateIndexFrom, hc]
    · have hstep : findStateIndexFrom state k (s0 :: rest) =
          findStateIndexFrom state (k + 1) rest := by
        simp [findStateIndexFrom, hc]
      rcases ih (k + 1) with ⟨i, hi, hmem, hleast⟩ | ⟨hnone, hall⟩
      · left
        refine ⟨i + 1, ?_, by simpa using hmem, ?_⟩
        · rw [hstep, hi]
          congr 1
          omega
        · intro j hj
          cases j with
          | zero => simpa using hc
          | succ j => simpa using hleast j (by omega)
      · right
        refine ⟨by rw [hstep, hnone], ?_⟩
        intro j
        cases j with
        | zero => simpa using hc
        | succ j => simpa using hall j

theorem hasStateIn_iff (state : Ptr) (states : List Ptr) :
    hasStateIn state states = true ↔ ∃ j : Nat, states[j]? = some state := by
  induction states with
  | nil => simp [hasStateIn]
  | cons s0 rest ih =>
    by_cases hc : s0 = state
    · simp only [hasStateIn, hc, if_true, true_iff]
      exact ⟨0, by simp⟩
    · simp only [hasStateIn, hc, if_false, ih]
      constructor
      · rintro ⟨j, hj⟩
        exact ⟨j + 1, by simpa using hj⟩
      · rintro ⟨j, hj⟩
        cases j with
        | zero => exact absurd (by simpa using hj) hc
        | succ j => exact ⟨j, by simpa using hj⟩

/-- C14: `FindStateIndex(s)` returns the least index at which `g.States` holds the very
pointer `s`, or `-1` when there is none, and `HasState(s)` is true exactly when
`FindStateIndex(s)` is not `-1`. -/
theorem findStateIndex_spec (g : GNBA) (s : Ptr) :
    ((∃ j : Nat, g.States[j]? = some s) →
      ∃ i : Nat, g.FindStateIndex s = (i : Int) ∧ g.States[i]? = some s ∧
        ∀ j : Nat, j < i → g.States[j]? ≠ some s) ∧
    (g.FindStateIndex s = -1 ↔ ∀ j : Nat, g.States[j]? ≠ some s) ∧
    (g.HasState s = true ↔ g.FindStateIndex s ≠ -1) := by
  have hhas := hasStateIn_iff s g.States
  unfold GNBA.FindStateIndex GNBA.HasState
  rcases findStateIndexFrom_spec s g.States 0 with ⟨i, hi, hmem, hleast⟩ | ⟨hnone, hall⟩
  · have hi2 : findStateIndexFrom s 0 g.States = (i : Int) := by simpa using hi
    have hne : findStateIndexFrom s 0 g.States ≠ -1 := by
      rw [hi2]
      omega
    refine ⟨fun _ => ⟨i, hi2, hmem, hleast⟩, ?_, ?_⟩
    · constructor
      · intro h
        exact absurd h hne
      · intro h
        exact absurd hmem (h i)
    · rw [hhas]
      exact ⟨fun _ => hne, fun _ => ⟨i, hmem⟩⟩
  · refine ⟨?_, ⟨fun _ => hall, fun _ => hnone⟩, ?_⟩
    · rintro ⟨j, hj⟩
      exact absurd hj (hall j)
    · rw [hhas]
      constructor
      · rintro ⟨j, hj⟩
        exact absurd hj (hall j)
      · intro h
        exact absurd hnone h

theorem findStateIndex_spec_witness :
    ∃ i : Nat, GNBA.FindStateIndex
        { States := [some 3, some 5, some 5], StartingStates := [], FinalStates := [] }
        (some 5) = (i : Int) ∧
      ([some 3, some 5, some 5] : List Ptr)[i]? = some (some 5) ∧
      ∀ j : Nat, j < i → ([some 3, some 5, some 5] : List Ptr)[j]? ≠ some (some 5) :=
  (findStateIndex_spec
    { States := [some 3, some 5, some 5], StartingStates := [], FinalStates := [] }
    (some 5)).1 ⟨2, rfl⟩

end gnba

/-! # Further theorems on formulas -/

namespace ltl

/-! ## Panics other than `ErrNotPropositional` -/

/-- C19: when `phi` has a method `Satisfied` and that method panics with a value other than
`ErrNotPropositional`, `Satisfied` recovers the panic and returns `(false, nil)`. -/
theorem satisfied_other_panic (impl : Node → Option (Set → Outcome Bool)) (phi : Node)
    (set : Set) (p : Set → Outcome Bool) (v : PanicValue) (h : impl phi = some p)
    (hp : p set = .panic v) (hv : v ≠ .error .ErrNotPropositional) :
    Satisfied impl phi set = .ret (false, none) := by
  rw [satisfied_of_panic impl phi set p v h hp]
  simp [hv]

theorem satisfied_other_panic_witness :
    Satisfied sampleImpl (.Always (.AP "a")) [] = .ret (false, none) :=
  satisfied_other_panic sampleImpl (.Always (.AP "a")) []
    (fun _ => .panic (.other "index out of range")) (.other "index out of range") rfl rfl
    (fun h => PanicValue.noConfusion h)

/-! ## The closure of a negation -/

/-- The members of the closure, in terms of reachability. -/
theorem closure_mem_reachable (visit : Set → List Node) (phi : Node)
    (h : wellFormed phi = true)
    (hvisit : ∀ sub, Subformulae phi = some sub → admissible sub (visit sub) = true) :
    ∃ S, Closure visit phi = some S ∧
      ∀ x, x ∈ S ↔ Reachable phi x ∨ ∃ s, Reachable phi s ∧ x = Negate s := by
  obtain ⟨sub, hsub⟩ := auxSubformulae_isSome phi h []
  have hS : Subformulae phi = some sub := hsub
  have hmem : ∀ x, x ∈ sub ↔ Reachable phi x := by
    intro x
    rw [auxSubformulae_mem phi [] sub hsub x]
    simp
  refine ⟨rangeNegate (visit sub) sub, by simp [Closure, hS], ?_⟩
  intro x
  rw [closure_loop_mem sub (visit sub) (subformulae_not_child phi sub hS) (hvisit sub hS) x,
    hmem x]
  constructor
  · rintro (hx | ⟨s, hs, rfl⟩)
    · exact Or.inl hx
    · exact Or.inr ⟨s, (hmem s).mp hs, rfl⟩
  · rintro (hx | ⟨s, hs, rfl⟩)
    · exact Or.inl hx
    · exact Or.inr ⟨s, (hmem s).mpr hs, rfl⟩

theorem reachable_not (c x : Node) : Reachable (.Not c) x ↔ x = .Not c ∨ Reachable c x := by
  rw [reachable_iff]
  simp [children, ChildNode, LHSNode, RHSNode]

/-- A node that is not a negation and its negation have closures with the same members. -/
theorem closure_members_not (c : Node) (hc : Negate c = .Not c) (x : Node) :
    (Reachable (.Not c) x ∨ ∃ s, Reachable (.Not c) s ∧ x = Negate s) ↔
      (Reachable c x ∨ ∃ s, Reachable c s ∧ x = Negate s) := by
  have hrefl : Reachable c c := Relation.ReflTransGen.refl
  constructor
  · rintro (hx | ⟨s, hs, rfl⟩)
    · rcases (reachable_not c x).mp hx with rfl | hx
      · exact Or.inr ⟨c, hrefl, hc.symm⟩
      · exact Or.inl hx
    · rcases (reachable_not c s).mp hs with rfl | hs
      · exact Or.inl hrefl
      · exact Or.inr ⟨s, hs, rfl⟩
  · rintro (hx | ⟨s, hs, rfl⟩)
    · exact Or.inl ((reachable_not c x).mpr (Or.inr hx))
    · exact Or.inr ⟨s, (reachable_not c s).mpr (Or.inr hs), rfl⟩

/-- C20: for a formula that is not of the form `Not{Not{x}}`, the closure of its `Negate` and
its own closure have the same members, whichever keys the two `range` loops produce. -/
theorem closure_negate (visit1 visit2 : Set → List Node) (phi : Node)
    (h : wellFormed phi = true) (hphi : isDoubleNegation phi = false)
    (hvisit1 : ∀ sub, Subformulae phi = some sub → admissible sub (visit1 sub) = true)
    (hvisit2 : ∀ sub, Subformulae (Negate phi) = some sub →
      admissible sub (visit2 sub) = true) :
    ∃ S T, Closure visit1 phi = some S ∧ Closure visit2 (Negate phi) = some T ∧
      ∀ x, x ∈ T ↔ x ∈ S := by
  have hwf2 : wellFormed (Negate phi) = true := by
    cases phi <;> simp_all [Negate, wellFormed]
  obtain ⟨S, hS, hmemS⟩ := closure_mem_reachable visit1 phi h hvisit1
  obtain ⟨T, hT, hmemT⟩ := closure_mem_reachable visit2 (Negate phi) hwf2 hvisit2
  refine ⟨S, T, hS, hT, ?_⟩
  intro x
  rw [hmemS x, hmemT x]
  cases phi with
  | Not c =>
    have hc : Negate c = .Not c := by
      cases c <;> simp_all [Negate, isDoubleNegation]
    exact (closure_members_not c hc x).symm
  | _ =>
    refine closure_members_not _ ?_ x
    rfl

theorem closure_negate_witness :
    ∃ S T, Closure visitInitial (.Not (.AP "p")) = some S ∧
      Closure visitAll (Negate (.Not (.AP "p"))) = some T ∧ ∀ x, x ∈ T ↔ x ∈ S :=
  closure_negate visitInitial visitAll (.Not (.AP "p")) rfl rfl
    (fun sub hsub => by
      rw [show Subformulae (.Not (.AP "p")) = some [.Not (.AP "p"), .AP "p"] from by decide]
        at hsub
      cases hsub
      decide)
    (fun sub hsub => by
      rw [show Subformulae (Negate (.Not (.AP "p"))) = some [.AP "p"] from by decide] at hsub
      cases hsub
      decide)

end ltl

namespace ltl

/-! ## Size of the subformulae and of the closure -/

theorem add_nodup (s : Set) (n : Node) (h : s.Nodup) : (Set.Add s n).Nodup := by
  unfold Set.Add
  by_cases hn : n ∈ s
  · simpa [hn] using h
  · simp only [hn, if_false]
    exact List.Nodup.append h (List.nodup_singleton n) (by simpa using hn)

theorem add_length_le (s : Set) (n : Node) : (Set.Add s n).length ≤ s.length + 1 := by
  unfold Set.Add
  by_cases hn : n ∈ s <;> simp [hn]

theorem auxSubformulae_nodup (n : Node) :
    ∀ (acc S : Set), auxSubformulae n acc = some S → acc.Nodup → S.Nodup := by
  induction n with
  | AP a =>
    intro acc S h hacc
    simp only [auxSubformulae, Option.some.injEq] at h
    subst h
    exact add_nodup acc _ hacc
  | True =>
    intro acc S h hacc
    simp only [auxSubformulae, Option.some.injEq] at h
    subst h
    exact add_nodup acc _ hacc
  | Ref i =>
    intro acc S h
    simp [auxSubformulae] at h
  | Not c ih | Next c ih | Always c ih | Eventually c ih =>
    intro acc S h hacc
    simp only [auxSubformulae] at h
    exact ih _ _ h (add_nodup acc _ hacc)
  | And l r ihl ihr | Or l r ihl ihr | Impl l r ihl ihr | Until l r ihl ihr =>
    intro acc S h hacc
    simp only [auxSubformulae, Option.bind_eq_some] at h
    obtain ⟨S1, h1, h2⟩ := h
    exact ihr _ _ h2 (ihl _ _ h1 (add_nodup acc _ hacc))

theorem auxSubformulae_length (n : Node) :
    ∀ (acc S : Set), auxSubformulae n acc = some S → S.length ≤ acc.length + n.Len := by
  induction n with
  | AP a =>
    intro acc S h
    simp only [auxSubformulae, Option.some.injEq] at h
    subst h
    exact add_length_le acc _
  | True =>
    intro acc S h
    simp only [auxSubformulae, Option.some.injEq] at h
    subst h
    exact add_length_le acc _
  | Ref i =>
    intro acc S h
    simp [auxSubformulae] at h
  | Not c ih | Next c ih | Always c ih | Eventually c ih =>
    intro acc S h
    simp only [auxSubformulae] at h
    have h1 := Nat.le_trans (ih _ _ h) (Nat.add_le_add_right (add_length_le acc _) _)
    simp only [Node.Len]
    omega
  | And l r ihl ihr | Or l r ihl ihr | Impl l r ihl ihr | Until l r ihl ihr =>
    intro acc S h
    simp only [auxSubformulae, Option.bind_eq_some] at h
    obtain ⟨S1, h1, h2⟩ := h
    have h3 := Nat.le_trans (ihl _ _ h1) (Nat.add_le_add_right (add_length_le acc _) _)
    have h4 := ihr _ _ h2
    simp only [Node.Len]
    omega

theorem rangeNegate_nodup (visit : List Node) :
    ∀ cur : Set, cur.Nodup → (rangeNegate visit cur).Nodup := by
  induction visit with
  | nil => exact fun cur h => h
  | cons s rest ih =>
    intro cur h
    simp only [rangeNegate]
    exact ih _ (add_nodup cur _ h)

/-- C18: `Subformulae(phi)` has at most `Len(phi)` elements and `Closure(phi)` at most twice
as many as `Subformulae(phi)`; both are finite lists of keys without repetition. -/
theorem closure_size (visit : Set → List Node) (phi : Node) (h : wellFormed phi = true)
    (hvisit : ∀ sub, Subformulae phi = some sub → admissible sub (visit sub) = true) :
    ∃ sub S, Subformulae phi = some sub ∧ Closure visit phi = some S ∧
      sub.length ≤ phi.Len ∧ S.length ≤ 2 * sub.length ∧ sub.Nodup ∧ S.Nodup := by
  obtain ⟨sub, hsub⟩ := auxSubformulae_isSome phi h []
  have hS : Subformulae phi = some sub := hsub
  have hnd : sub.Nodup := auxSubformulae_nodup phi [] sub hsub List.nodup_nil
  have hlen : sub.length ≤ phi.Len := by
    simpa using auxSubformulae_length phi [] sub hsub
  have hmem := closure_loop_mem sub (visit sub) (subformulae_not_child phi sub hS) (hvisit sub hS)
  have hnd2 : (rangeNegate (visit sub) sub).Nodup := rangeNegate_nodup (visit sub) sub hnd
  refine ⟨sub, rangeNegate (visit sub) sub, hS, by simp [Closure, hS], hlen, ?_, hnd, hnd2⟩
  have hsubset : rangeNegate (visit sub) sub ⊆ sub ++ sub.map Negate := by
    intro x hx
    rcases (hmem x).mp hx with hx | ⟨s, hs, rfl⟩
    · exact List.mem_append_left _ hx
    · exact List.mem_append_right _ (List.mem_map_of_mem Negate hs)
  have := (List.subperm_of_subset hnd2 hsubset).length_le
  simp only [List.length_append, List.length_map] at this
  omega

theorem closure_size_witness :
    ∃ sub S, Subformulae (.And (.Not (.AP "p")) .True) = some sub ∧
      Closure visitAll (.And (.Not (.AP "p")) .True) = some S ∧
      sub.length ≤ (Node.And (.Not (.AP "p")) .True).Len ∧ S.length ≤ 2 * sub.length ∧
      sub.Nodup ∧ S.Nodup :=
  closure_size visitAll (.And (.Not (.AP "p")) .True) rfl
    (fun sub hsub => by
      rw [subformulae_sample] at hsub
      cases hsub
      decide)

end ltl

namespace gnba

open ba

/-! ## The textual dump -/

theorem isAcceptanceFrom_findIdx (p : Ptr) (fs : List StateSet) :
    ∀ k : Nat, isAcceptanceFrom p k fs =
      match fs.findIdx? (fun S => decide (p ∈ S)) k with
      | some i => ((i : Int), true)
      | none => (-1, false) := by
  induction fs with
  | nil =>
    intro k
    rfl
  | cons S rest ih =>
    intro k
    by_cases hc : p ∈ S
    · simp [isAcceptanceFrom, StateSet.Contains, List.findIdx?, hc]
    · simp [isAcceptanceFrom, StateSet.Contains, List.findIdx?, hc, ih]

theorem suffix_eq (g : GNBA) (p : Ptr) :
    (match g.IsAcceptanceState p with
      | (i, true) => "\x7b" ++ toString i ++ "\x7d"
      | (_, false) => "") =
    (match g.FinalStates.findIdx? (fun S => decide (p ∈ S)) with
      | some i => "\x7b" ++ toString i ++ "\x7d"
      | none => "") := by
  unfold GNBA.IsAcceptanceState
  rw [isAcceptanceFrom_findIdx]
  cases g.FinalStates.findIdx? (fun S => decide (p ∈ S)) 0 with
  | none => rfl
  | some i => rfl

theorem transitionLines_eq (showSet : ltl.Set → String) (h : Heap) (ts : List Transition) :
    ∀ sb : String, transitionLines showSet h ts sb =
      (transitionsDump showSet h ts).map (fun tail => sb ++ tail) := by
  induction ts with
  | nil =>
    intro sb
    simp [transitionLines, transitionsDump]
  | cons t rest ih =>
    intro sb
    cases hd : deref h t.State with
    | none => simp [transitionLines, transitionsDump, hd]
    | some target =>
      simp only [transitionLines, transitionsDump, hd, ih]
      cases transitionsDump showSet h rest with
      | none => rfl
      | some tail => simp [String.append_assoc]

theorem stateLines_eq (showSet : ltl.Set → String) (h : Heap) (g : GNBA) (ps : List Ptr) :
    ∀ sb : String, stateLines showSet h g ps sb =
      (statesDump showSet h g ps).map (fun tail => sb ++ tail) := by
  induction ps with
  | nil =>
    intro sb
    simp [stateLines, statesDump]
  | cons p rest ih =>
    intro sb
    cases hd : deref h p with
    | none => simp [stateLines, statesDump, stateDump, hd]
    | some obj =>
      simp only [stateLines, statesDump, stateDump, hd, transitionLines_eq, suffix_eq,
        GNBA.IsStartingState, StateSet.Contains, decide_eq_true_eq]
      cases transitionsDump showSet h obj.Transitions with
      | none => rfl
      | some lines =>
        simp only [Option.map_some', ih]
        cases statesDump showSet h g rest with
        | none => rfl
        | some tail => simp [String.append_assoc]

theorem transitionsDump_isSome (showSet : ltl.Set → String) (h : Heap) (ts : List Transition)
    (hts : ∀ t, t ∈ ts → ∃ target, deref h t.State = some target) :
    ∃ out, transitionsDump showSet h ts = some out := by
  induction ts with
  | nil => exact ⟨"", rfl⟩
  | cons t rest ih =>
    obtain ⟨target, ht⟩ := hts t (List.mem_cons_self t rest)
    obtain ⟨tail, htail⟩ := ih (fun u hu => hts u (List.mem_cons_of_mem t hu))
    simp only [transitionsDump, ht, htail]
    exact ⟨_, rfl⟩

theorem statesDump_isSome (showSet : ltl.Set → String) (h : Heap) (g : GNBA) (ps : List Ptr)
    (hps : ∀ p, p ∈ ps → ∃ obj, deref h p = some obj ∧
      ∀ t, t ∈ obj.Transitions → ∃ target, deref h t.State = some target) :
    ∃ out, statesDump showSet h g ps = some out := by
  induction ps with
  | nil => exact ⟨"", rfl⟩
  | cons p rest ih =>
    obtain ⟨obj, hobj, hts⟩ := hps p (List.mem_cons_self p rest)
    obtain ⟨lines, hlines⟩ := transitionsDump_isSome showSet h obj.Transitions hts
    obtain ⟨tail, htail⟩ := ih (fun q hq => hps q (List.mem_cons_of_mem p hq))
    simp only [statesDump, stateDump, hobj, hlines, htail]
    exact ⟨_, rfl⟩

/-- C17, amended: the dump renders each state as its elementary set, prefixed with `>` exactly
when it is a starting state and suffixed with the index of the first acceptance set that
holds the state (no suffix when none does), followed by one line `label --> target` per
outgoing transition; it is produced whenever no state or transition target is `nil`. -/
theorem string_spec (showSet : ltl.Set → String) (h : Heap) (g : GNBA) :
    GNBA.String showSet h g = statesDump showSet h g g.States ∧
    ((∀ p, p ∈ g.States → ∃ obj, deref h p = some obj ∧
        ∀ t, t ∈ obj.Transitions → ∃ target, deref h t.State = some target) →
      ∃ out, GNBA.String showSet h g = some out) := by
  have heq : GNBA.String showSet h g = statesDump showSet h g g.States := by
    unfold GNBA.String
    rw [stateLines_eq]
    cases statesDump showSet h g g.States with
    | none => rfl
    | some out => simp
  refine ⟨heq, ?_⟩
  intro hps
  rw [heq]
  exact statesDump_isSome showSet h g g.States hps

theorem string_spec_witness :
    ∃ out, GNBA.String (fun _ => "q") sampleHeap sampleGNBA = some out :=
  (string_spec (fun _ => "q") sampleHeap sampleGNBA).2 (by
    intro p hp
    simp only [sampleGNBA, List.mem_singleton] at hp
    subst hp
    exact ⟨{ ElementarySet := [], Transitions := [] }, rfl, fun t ht => by cases ht⟩)

/-- C17 fails as stated: a state that belongs to the acceptance sets 0 and 1 is dumped with
the index 0 only. -/
theorem string_shows_first_index_only :
    (some 0 : Ptr) ∈ sampleGNBA.FinalStates.getD 0 [] ∧
    (some 0 : Ptr) ∈ sampleGNBA.FinalStates.getD 1 [] ∧
    GNBA.String (fun _ => "q") sampleHeap sampleGNBA = some "q\x7b0\x7d\n" := by
  refine ⟨by decide, by decide, by decide⟩

end gnba

namespace gnba

open ba

/-! ## Copy -/

theorem copy_sample :
    GNBA.Copy twoStateHeap twoStateGNBA =
      some (twoStateHeap ++
        [{ ElementarySet := [.AP "a"],
           Transitions :=
             [{ State := some 2, Label := [.AP "a"] }, { State := some 3, Label := [] }] },
         { ElementarySet := [.AP "b"],
           Transitions := [{ State := some 3, Label := [.AP "b"] }] }],
        { States := [some 2, some 3], StartingStates := [some 2],
          FinalStates := [[some 3]] }) := by
  decide

theorem rtAfter_of_not_mem (as : List Nat) :
    ∀ (k : Nat) (rt : RenameTable) (p : Ptr), p ∉ as.map some → rtAfter as k rt p = rt p := by
  induction as with
  | nil => exact fun k rt p _ => rfl
  | cons a rest ih =>
    intro k rt p hp
    simp only [List.map_cons, List.mem_cons, not_or] at hp
    simp only [rtAfter]
    rw [ih (k + 1) _ p hp.2]
    simp [RenameTable.set, hp.1]

theorem rtAfter_of_mem (as : List Nat) :
    ∀ (k : Nat) (rt : RenameTable) (a : Nat), a ∈ as →
      ∃ i : Nat, i < as.length ∧ rtAfter as k rt (some a) = some (k + i) := by
  induction as with
  | nil =>
    intro k rt a ha
    cases ha
  | cons b rest ih =>
    intro k rt a ha
    by_cases hr : a ∈ rest
    · obtain ⟨i, hi, hrt⟩ := ih (k + 1) (RenameTable.set rt (some b) (some k)) a hr
      refine ⟨i + 1, by simp only [List.length_cons]; omega, ?_⟩
      simp only [rtAfter, hrt]
      congr 1
      omega
    · have hab : a = b := by
        rcases List.mem_cons.mp ha with h | h
        · exact h
        · exact absurd h hr
      subst hab
      refine ⟨0, by simp, ?_⟩
      simp only [rtAfter]
      rw [rtAfter_of_not_mem rest (k + 1) _ (some a) (by simpa using hr)]
      simp [RenameTable.set]

theorem rtAfter_of_index (as : List Nat) :
    ∀ (k : Nat) (rt : RenameTable) (i a : Nat), as.Nodup → as[i]? = some a →
      rtAfter as k rt (some a) = some (k + i) := by
  induction as with
  | nil =>
    intro k rt i a _ ha
    simp at ha
  | cons b rest ih =>
    intro k rt i a hnd ha
    have hnd2 := List.nodup_cons.mp hnd
    cases i with
    | zero =>
      simp at ha
      subst ha
      simp only [rtAfter]
      rw [rtAfter_of_not_mem rest (k + 1) _ (some b) (by simpa using hnd2.1)]
      simp [RenameTable.set]
    | succ j =>
      simp only [List.getElem?_cons_succ] at ha
      simp only [rtAfter]
      rw [ih (k + 1) _ j a hnd2.2 ha]
      congr 1
      omega

theorem copyStates_eq (ao : List (Nat × State)) :
    ∀ (h : Heap) (rt : RenameTable) (states : List Ptr),
      (∀ x, x ∈ ao → h[x.1]? = some x.2) →
      copyStates (ao.map (fun x => some x.1)) h rt states =
        some (h ++ ao.map (fun x => x.2.Copy),
          rtAfter (ao.map (fun x => x.1)) h.length rt,
          states ++ (List.range' h.length ao.length).map some) := by
  induction ao with
  | nil =>
    intro h rt states _
    simp [copyStates, rtAfter]
  | cons x rest ih =>
    intro h rt states hao
    have hx : h[x.1]? = some x.2 := hao x (List.mem_cons_self x rest)
    have hrest : ∀ y, y ∈ rest → (h ++ [x.2.Copy])[y.1]? = some y.2 := by
      intro y hy
      have hy2 := hao y (List.mem_cons_of_mem x hy)
      have hlt : y.1 < h.length := by
        rcases List.getElem?_eq_some.mp hy2 with ⟨hlt, _⟩
        exact hlt
      rw [List.getElem?_append_left hlt]
      exact hy2
    simp only [List.map_cons, copyStates, deref, hx]
    rw [ih (h ++ [x.2.Copy]) _ _ hrest]
    simp [rtAfter, List.range'_succ, List.append_assoc]

theorem renameStates_eq (rt : RenameTable) (todo : List State) :
    ∀ pre : Heap,
      renameStates rt ((List.range' pre.length todo.length).map some) (pre ++ todo) =
        some (pre ++ todo.map (fun c => c.Rename rt)) := by
  induction todo with
  | nil =>
    intro pre
    simp [renameStates]
  | cons c cs ih =>
    intro pre
    have hget : (pre ++ c :: cs)[pre.length]? = some c := by
      rw [List.getElem?_append_right (Nat.le_refl _)]
      simp
    have hset : (pre ++ c :: cs).set pre.length (c.Rename rt) =
        (pre ++ [c.Rename rt]) ++ cs := by
      rw [List.set_append_right _ _ (Nat.le_refl _)]
      simp
    have hih := ih (pre ++ [c.Rename rt])
    simp only [List.length_append, List.length_singleton] at hih
    simp only [List.length_cons, List.range'_succ, List.map_cons, renameStates, deref, hget,
      hset, hih]
    simp

theorem foldl_append_singleton {α β : Type} (f : α → β) (l : List α) :
    ∀ init : List β, l.foldl (fun acc s => acc ++ [f s]) init = init ++ l.map f := by
  induction l with
  | nil => simp
  | cons a rest ih =>
    intro init
    simp [ih, List.append_assoc]

theorem mem_stateSet_add (s : StateSet) (p q : Ptr) :
    q ∈ StateSet.Add s p ↔ q ∈ s ∨ q = p := by
  unfold StateSet.Add
  by_cases h : p ∈ s
  · simp only [h, if_true]
    constructor
    · exact Or.inl
    · rintro (hq | rfl)
      · exact hq
      · exact h
  · simp [h]

theorem mem_foldl_add (rt : RenameTable) (S : StateSet) :
    ∀ (init : StateSet) (q : Ptr),
      q ∈ S.foldl (fun acc p => StateSet.Add acc (rt p)) init ↔
        q ∈ init ∨ ∃ p, p ∈ S ∧ rt p = q := by
  induction S with
  | nil => simp
  | cons a rest ih =>
    intro init q
    simp only [List.foldl_cons, ih, mem_stateSet_add, List.mem_cons]
    constructor
    · rintro ((h | h) | ⟨p, hp, hq⟩)
      · exact Or.inl h
      · exact Or.inr ⟨a, Or.inl rfl, h.symm⟩
      · exact Or.inr ⟨p, Or.inr hp, hq⟩
    · rintro (h | ⟨p, rfl | hp, hq⟩)
      · exact Or.inl (Or.inl h)
      · exact Or.inl (Or.inr hq.symm)
      · exact Or.inr ⟨p, hp, hq⟩

theorem mem_stateSet_copy (S : StateSet) (rt : RenameTable) (q : Ptr) :
    q ∈ StateSet.Copy S rt ↔ ∃ p, p ∈ S ∧ rt p = q := by
  unfold StateSet.Copy
  rw [mem_foldl_add]
  simp [NewStateSet]

/-- The heap and the automaton that `Copy` returns, in closed form. -/
theorem copy_eq (h : Heap) (g : GNBA) (ao : List (Nat × State))
    (hst : g.States = ao.map (fun x => some x.1))
    (hao : ∀ x, x ∈ ao → h[x.1]? = some x.2) :
    g.Copy h =
      some (h ++ ao.map (fun x =>
          (x.2.Copy).Rename (rtAfter (ao.map (fun x => x.1)) h.length RenameTable.empty)),
        { States := (List.range' h.length ao.length).map some,
          StartingStates :=
            StateSet.Copy g.StartingStates
              (rtAfter (ao.map (fun x => x.1)) h.length RenameTable.empty),
          FinalStates := g.FinalStates.map (fun S =>
            StateSet.Copy S (rtAfter (ao.map (fun x => x.1)) h.length RenameTable.empty)) }) := by
  have hr := renameStates_eq (rtAfter (ao.map (fun x => x.1)) h.length RenameTable.empty)
    (ao.map (fun x => x.2.Copy)) h
  simp only [List.length_map] at hr
  unfold GNBA.Copy
  simp only [hst, NewGNBA, copyStates_eq ao h RenameTable.empty [] hao, List.nil_append, hr,
    foldl_append_singleton, List.map_map]
  rfl

theorem allocated_states (h : Heap) (ps : List Ptr)
    (hall : ps.all (fun p => (deref h p).isSome) = true) :
    ∃ ao : List (Nat × State),
      ps = ao.map (fun x => some x.1) ∧ ∀ x, x ∈ ao → h[x.1]? = some x.2 := by
  induction ps with
  | nil => exact ⟨[], rfl, fun x hx => by cases hx⟩
  | cons p rest ih =>
    simp only [List.all_cons, Bool.and_eq_true] at hall
    obtain ⟨ao, hrest, hao⟩ := ih hall.2
    cases p with
    | none => simp [deref] at hall
    | some a =>
      cases hobj : h[a]? with
      | none => simp [deref, hobj] at hall
      | some obj =>
        refine ⟨(a, obj) :: ao, by simp [hrest], ?_⟩
        intro x hx
        rcases List.mem_cons.mp hx with rfl | hx
        · exact hobj
        · exact hao x hx

theorem closed_start (h : Heap) (g : GNBA) (hc : closed h g = true) :
    ∀ p, p ∈ g.StartingStates → p ∈ g.States := by
  simp only [closed, Bool.and_eq_true, List.all_eq_true, decide_eq_true_eq] at hc
  exact hc.1.1

theorem closed_final (h : Heap) (g : GNBA) (hc : closed h g = true) :
    ∀ S, S ∈ g.FinalStates → ∀ p, p ∈ S → p ∈ g.States := by
  simp only [closed, Bool.and_eq_true, List.all_eq_true, decide_eq_true_eq] at hc
  exact hc.1.2

theorem closed_transitions (h : Heap) (g : GNBA) (hc : closed h g = true) :
    ∀ p, p ∈ g.States → ∀ obj, deref h p = some obj →
      ∀ t, t ∈ obj.Transitions → t.State ∈ g.States := by
  simp only [closed, Bool.and_eq_true, List.all_eq_true] at hc
  intro p hp obj hobj t ht
  have := hc.2 p hp
  simp only [hobj, List.all_eq_true, decide_eq_true_eq] at this
  exact this t ht

theorem copied_object {α : Type} (h : List α) (l : List α) (i : Nat) (x : α)
    (hx : l[i]? = some x) : (h ++ l)[h.length + i]? = some x := by
  rw [List.getElem?_append_right (Nat.le_add_right _ _)]
  simpa using hx

theorem mem_new_states (m n : Nat) (p : Ptr) :
    p ∈ (List.range' m n).map some ↔ ∃ i : Nat, i < n ∧ p = some (m + i) := by
  simp only [List.mem_map, List.mem_range'_1]
  constructor
  · rintro ⟨k, ⟨hk1, hk2⟩, rfl⟩
    exact ⟨k - m, by omega, by congr 1; omega⟩
  · rintro ⟨i, hi, rfl⟩
    exact ⟨m + i, ⟨by omega, by omega⟩, rfl⟩

theorem old_states_below (h : Heap) (ao : List (Nat × State))
    (hao : ∀ x, x ∈ ao → h[x.1]? = some x.2) (p : Ptr)
    (hp : p ∈ ao.map (fun x => some x.1)) : ∃ a : Nat, p = some a ∧ a < h.length := by
  obtain ⟨x, hx, rfl⟩ := List.mem_map.mp hp
  rcases List.getElem?_eq_some.mp (hao x hx) with ⟨hlt, _⟩
  exact ⟨x.1, rfl, hlt⟩

theorem renamed_is_new (h : Heap) (ao : List (Nat × State))
    (hao : ∀ x, x ∈ ao → h[x.1]? = some x.2) (rt : RenameTable) (p : Ptr)
    (hp : p ∈ ao.map (fun x => some x.1)) :
    rtAfter (ao.map (fun x => x.1)) h.length rt p ∉ ao.map (fun x => some x.1) := by
  obtain ⟨x, hx, rfl⟩ := List.mem_map.mp hp
  obtain ⟨i, _, hrt⟩ := rtAfter_of_mem (ao.map (fun x => x.1)) h.length rt x.1
    (List.mem_map_of_mem _ hx)
  rw [hrt]
  intro hmem
  obtain ⟨a, ha, hlt⟩ := old_states_below h ao hao _ hmem
  simp only [Option.some.injEq] at ha
  omega

/-- C12: `Copy` returns an automaton none of whose states, starting states, accepting states
and transition targets is a state of `g`, and it leaves every object that was in the heap
before the call as it was, the states of `g` and their transitions among them. -/
theorem copy_shares_nothing (h : Heap) (g : GNBA) (halloc : allocated h g = true)
    (hclosed : closed h g = true) :
    ∃ h2 g2, g.Copy h = some (h2, g2) ∧
      (∀ p, p ∈ g2.States → p ∉ g.States) ∧
      (∀ p, p ∈ g2.StartingStates → p ∉ g.States) ∧
      (∀ S, S ∈ g2.FinalStates → ∀ p, p ∈ S → p ∉ g.States) ∧
      (∀ p, p ∈ g2.States → ∀ obj, deref h2 p = some obj →
        ∀ t, t ∈ obj.Transitions → t.State ∉ g.States) ∧
      (∀ a : Nat, a < h.length → h2[a]? = h[a]?) ∧
      (∀ p, p ∈ g.States → deref h2 p = deref h p) := by
  obtain ⟨ao, hst, hao⟩ := allocated_states h g.States halloc
  refine ⟨_, _, copy_eq h g ao hst hao, ?_, ?_, ?_, ?_, ?_, ?_⟩
  · intro p hp hold
    obtain ⟨i, _, rfl⟩ := (mem_new_states _ _ p).mp hp
    rw [hst] at hold
    obtain ⟨a, ha, hlt⟩ := old_states_below h ao hao _ hold
    simp only [Option.some.injEq] at ha
    omega
  · intro q hq
    obtain ⟨p, hp, rfl⟩ := (mem_stateSet_copy _ _ q).mp hq
    have hp2 := closed_start h g hclosed p hp
    rw [hst] at hp2 ⊢
    exact renamed_is_new h ao hao _ p hp2
  · intro S2 hS2 q hq
    obtain ⟨S, hS, rfl⟩ := List.mem_map.mp hS2
    obtain ⟨p, hp, rfl⟩ := (mem_stateSet_copy _ _ q).mp hq
    have hp2 := closed_final h g hclosed S hS p hp
    rw [hst] at hp2 ⊢
    exact renamed_is_new h ao hao _ p hp2
  · intro p hp obj hobj t ht
    obtain ⟨i, hi, rfl⟩ := (mem_new_states _ _ p).mp hp
    obtain ⟨x, hx⟩ : ∃ x, ao[i]? = some x := ⟨ao[i], List.getElem?_eq_getElem hi⟩
    have hcopy := copied_object h (ao.map (fun x =>
      (x.2.Copy).Rename (rtAfter (ao.map (fun x => x.1)) h.length RenameTable.empty))) i _
      (by rw [List.getElem?_map, hx]; rfl)
    simp only [deref] at hobj
    rw [hcopy] at hobj
    simp only [Option.some.injEq] at hobj
    subst hobj
    simp only [State.Rename, State.Copy, List.mem_map] at ht
    obtain ⟨t0, ht0, rfl⟩ := ht
    have hxmem : x ∈ ao := List.getElem?_mem hx
    have hold : (some x.1 : Ptr) ∈ g.States := by
      rw [hst]
      exact List.mem_map_of_mem _ hxmem
    have htarget := closed_transitions h g hclosed (some x.1) hold x.2 (hao x hxmem) t0 ht0
    rw [hst] at htarget ⊢
    exact renamed_is_new h ao hao _ _ htarget
  · intro a ha
    exact List.getElem?_append_left ha
  · intro p hp
    rw [hst] at hp
    obtain ⟨a, rfl, hlt⟩ := old_states_below h ao hao p hp
    exact List.getElem?_append_left hlt

theorem copy_shares_nothing_witness :
    ∃ h2 g2, twoStateGNBA.Copy twoStateHeap = some (h2, g2) ∧
      (∀ p, p ∈ g2.States → p ∉ twoStateGNBA.States) ∧
      (∀ p, p ∈ g2.StartingStates → p ∉ twoStateGNBA.States) ∧
      (∀ S, S ∈ g2.FinalStates → ∀ p, p ∈ S → p ∉ twoStateGNBA.States) ∧
      (∀ p, p ∈ g2.States → ∀ obj, deref h2 p = some obj →
        ∀ t, t ∈ obj.Transitions → t.State ∉ twoStateGNBA.States) ∧
      (∀ a : Nat, a < twoStateHeap.length → h2[a]? = twoStateHeap[a]?) ∧
      (∀ p, p ∈ twoStateGNBA.States → deref h2 p = deref twoStateHeap p) :=
  copy_shares_nothing twoStateHeap twoStateGNBA (by decide) (by decide)

theorem rtAfter_injective (as : List Nat) (hnd : as.Nodup) (k : Nat) (rt : RenameTable)
    (p q : Ptr) (hp : p ∈ as.map some) (hq : q ∈ as.map some)
    (heq : rtAfter as k rt p = rtAfter as k rt q) : p = q := by
  obtain ⟨a, ha, rfl⟩ := List.mem_map.mp hp
  obtain ⟨b, hb, rfl⟩ := List.mem_map.mp hq
  obtain ⟨i, hi⟩ := List.mem_iff_getElem?.mp ha
  obtain ⟨j, hj⟩ := List.mem_iff_getElem?.mp hb
  rw [rtAfter_of_index as k rt i a hnd hi, rtAfter_of_index as k rt j b hnd hj] at heq
  simp only [Option.some.injEq] at heq
  have hij : i = j := by omega
  subst hij
  rw [hi] at hj
  exact hj

/-- Membership in a renamed set, for a set of states of the automaton. -/
theorem mem_copy_iff (as : List Nat) (hnd : as.Nodup) (k : Nat) (rt : RenameTable)
    (S : StateSet) (hS : ∀ s, s ∈ S → s ∈ as.map some) (p : Ptr) (hp : p ∈ as.map some) :
    rtAfter as k rt p ∈ StateSet.Copy S (rtAfter as k rt) ↔ p ∈ S := by
  rw [mem_stateSet_copy]
  constructor
  · rintro ⟨s, hs, heq⟩
    have := rtAfter_injective as hnd k rt s p (hS s hs) hp heq
    rw [← this]
    exact hs
  · intro h
    exact ⟨p, h, rfl⟩

/-- The state at index `i` of the copy is the renamed state at index `i` of the original. -/
theorem copy_index (h : Heap) (ao : List (Nat × State)) (hnd : (ao.map (fun x => x.1)).Nodup)
    (rt : RenameTable) (i : Nat) (p p2 : Ptr)
    (hp : (ao.map (fun x => (some x.1 : Ptr)))[i]? = some p)
    (hp2 : ((List.range' h.length ao.length).map some)[i]? = some p2) :
    ∃ x, ao[i]? = some x ∧ p = some x.1 ∧ p2 = some (h.length + i) ∧
      rtAfter (ao.map (fun x => x.1)) h.length rt p = p2 := by
  rw [List.getElem?_map] at hp
  obtain ⟨x, hx, rfl⟩ := Option.map_eq_some'.mp hp
  have hi : i < ao.length := by
    rcases List.getElem?_eq_some.mp hx with ⟨hlt, _⟩
    exact hlt
  rw [List.getElem?_map, List.getElem?_range' _ _ hi] at hp2
  simp only [Nat.one_mul, Option.map_some', Option.some.injEq] at hp2
  subst hp2
  refine ⟨x, hx, rfl, rfl, ?_⟩
  exact rtAfter_of_index _ _ _ i x.1 hnd (by rw [List.getElem?_map, hx]; rfl)

/-- C11: for an automaton with pairwise distinct states whose starting states, accepting
states and transition targets are states of the automaton, `Copy` returns an automaton with
as many states and as many acceptance sets, in which the state at index `i` has the same
elementary set as the state at index `i` of the original, is a starting state, belongs to the
acceptance set `j`, and has a transition labelled `L` to the state at index `j`, exactly when
this holds in the original. -/
theorem copy_isomorphic (h : Heap) (g : GNBA) (halloc : allocated h g = true)
    (hnodup : g.States.Nodup) (hclosed : closed h g = true) :
    ∃ h2 g2, g.Copy h = some (h2, g2) ∧
      g2.States.length = g.States.length ∧
      g2.FinalStates.length = g.FinalStates.length ∧
      ∀ (i : Nat) (p p2 : Ptr), g.States[i]? = some p → g2.States[i]? = some p2 →
        (∃ obj obj2, deref h p = some obj ∧ deref h2 p2 = some obj2 ∧
          obj2.ElementarySet = obj.ElementarySet) ∧
        g2.IsStartingState p2 = g.IsStartingState p ∧
        (∀ (j : Nat) (S S2 : StateSet), g.FinalStates[j]? = some S →
          g2.FinalStates[j]? = some S2 → StateSet.Contains S2 p2 = StateSet.Contains S p) ∧
        (∀ (j : Nat) (q q2 : Ptr), g.States[j]? = some q → g2.States[j]? = some q2 →
          ∀ L : ltl.Set, hasTransition h2 p2 L q2 = hasTransition h p L q) := by
  obtain ⟨ao, hst, hao⟩ := allocated_states h g.States halloc
  have hnd : (ao.map (fun x => x.1)).Nodup := by
    have hmap : g.States = (ao.map (fun x => x.1)).map some := by
      rw [hst, List.map_map]
      rfl
    rw [hmap] at hnodup
    exact List.Nodup.of_map _ hnodup
  have hsome : (ao.map (fun x => x.1)).map some = ao.map (fun x => (some x.1 : Ptr)) := by
    rw [List.map_map]
    rfl
  refine ⟨_, _, copy_eq h g ao hst hao, by simp [hst], by simp, ?_⟩
  intro i p p2 hp hp2
  rw [hst] at hp
  obtain ⟨x, hx, rfl, rfl, hrt⟩ := copy_index h ao hnd RenameTable.empty i p p2 hp hp2
  have hxmem : x ∈ ao := List.getElem?_mem hx
  have hpmem : (some x.1 : Ptr) ∈ (ao.map (fun x => x.1)).map some := by
    rw [hsome]
    exact List.mem_map_of_mem _ hxmem
  have hobj : deref h (some x.1) = some x.2 := hao x hxmem
  have hobj2 := copied_object h (ao.map (fun x =>
      (x.2.Copy).Rename (rtAfter (ao.map (fun x => x.1)) h.length RenameTable.empty))) i _
      (by rw [List.getElem?_map, hx]; rfl)
  refine ⟨⟨x.2, _, hobj, hobj2, rfl⟩, ?_, ?_, ?_⟩
  · simp only [GNBA.IsStartingState, StateSet.Contains, decide_eq_decide]
    rw [← hrt]
    refine mem_copy_iff _ hnd _ _ _ ?_ _ hpmem
    intro s hs
    rw [hsome, ← hst]
    exact closed_start h g hclosed s hs
  · intro j S S2 hS hS2
    simp only [List.getElem?_map, hS, Option.map_some', Option.some.injEq] at hS2
    subst hS2
    simp only [StateSet.Contains, decide_eq_decide]
    rw [← hrt]
    refine mem_copy_iff _ hnd _ _ _ ?_ _ hpmem
    intro s hs
    rw [hsome, ← hst]
    exact closed_final h g hclosed S (List.getElem?_mem hS) s hs
  · intro j q q2 hq hq2 L
    rw [hst] at hq
    obtain ⟨y, hy, rfl, rfl, hrtq⟩ := copy_index h ao hnd RenameTable.empty j q q2 hq hq2
    have hqmem : (some y.1 : Ptr) ∈ (ao.map (fun x => x.1)).map some := by
      rw [hsome]
      exact List.mem_map_of_mem _ (List.getElem?_mem hy)
    have hobj3 : h[x.1]? = some x.2 := hao x hxmem
    simp only [hasTransition, deref, hobj3, hobj2]
    rw [Bool.eq_iff_iff]
    simp only [List.any_eq_true, Bool.and_eq_true, decide_eq_true_eq, State.Rename, State.Copy,
      List.mem_map]
    constructor
    · rintro ⟨t, ⟨t0, ht0, rfl⟩, hL, hT⟩
      refine ⟨t0, ht0, hL, ?_⟩
      have ht0mem : t0.State ∈ (ao.map (fun x => x.1)).map some := by
        rw [hsome, ← hst]
        exact closed_transitions h g hclosed (some x.1)
          (by rw [hst]; exact List.mem_map_of_mem _ hxmem) x.2 hobj t0 ht0
      exact rtAfter_injective _ hnd _ _ _ _ ht0mem hqmem (hT.trans hrtq.symm)
    · rintro ⟨t0, ht0, hL, hT⟩
      exact ⟨_, ⟨t0, ht0, rfl⟩, hL, by simp only [hT]; exact hrtq⟩

theorem copy_isomorphic_witness :
    ∃ h2 g2, twoStateGNBA.Copy twoStateHeap = some (h2, g2) ∧
      g2.States.length = twoStateGNBA.States.length ∧
      g2.FinalStates.length = twoStateGNBA.FinalStates.length ∧
      ∀ (i : Nat) (p p2 : Ptr), twoStateGNBA.States[i]? = some p → g2.States[i]? = some p2 →
        (∃ obj obj2, deref twoStateHeap p = some obj ∧ deref h2 p2 = some obj2 ∧
          obj2.ElementarySet = obj.ElementarySet) ∧
        g2.IsStartingState p2 = twoStateGNBA.IsStartingState p ∧
        (∀ (j : Nat) (S S2 : StateSet), twoStateGNBA.FinalStates[j]? = some S →
          g2.FinalStates[j]? = some S2 → StateSet.Contains S2 p2 = StateSet.Contains S p) ∧
        (∀ (j : Nat) (q q2 : Ptr), twoStateGNBA.States[j]? = some q →
          g2.States[j]? = some q2 →
          ∀ L : ltl.Set, hasTransition h2 p2 L q2 = hasTransition twoStateHeap p L q) :=
  copy_isomorphic twoStateHeap twoStateGNBA (by decide) (by decide) (by decide)

end gnba

/-! # Theorems on the repository -/

namespace repo

/-! ## Transitive ancestors -/

theorem reachesFrom_mem (dr : Repo) (ids : List Nat) (a : State)
    (ha : ReachesFrom dr ids a) : a ∈ dr.states := by
  cases ha with
  | direct _ hs _ => exact hs
  | step _ _ _ ht _ => exact ht

/-- One more unit of fuel adds the stored states one dependency edge further. -/
theorem mem_ancestorsFrom_succ (dr : Repo) :
    ∀ (k : Nat) (ids : List Nat) (a : State),
      a ∈ ancestorsFrom dr (k + 1) ids ↔
        (a ∈ dr.states ∧ a.id ∈ ids) ∨
        ∃ s, s ∈ ancestorsFrom dr k ids ∧ a ∈ dr.states ∧ a.id ∈ s.dependencies := by
  intro k
  induction k with
  | zero =>
    intro ids a
    simp [ancestorsFrom]
  | succ k ih =>
    intro ids a
    rw [ancestorsFrom, List.mem_append, ih]
    simp only [List.mem_filter, decide_eq_true_eq, List.mem_flatMap]
    constructor
    · rintro (h | (⟨ha, s, hs, hd⟩ | ⟨s, hs, ha, hd⟩))
      · exact Or.inl h
      · refine Or.inr ⟨s, ?_, ha, hd⟩
        rw [ancestorsFrom, List.mem_append]
        exact Or.inl (by simpa using hs)
      · refine Or.inr ⟨s, ?_, ha, hd⟩
        rw [ancestorsFrom, List.mem_append]
        exact Or.inr hs
    · rintro (h | ⟨s, hs, ha, hd⟩)
      · exact Or.inl h
      · rw [ancestorsFrom, List.mem_append] at hs
        rcases hs with hs | hs
        · exact Or.inr (Or.inl ⟨ha, s, by simpa using hs, hd⟩)
        · exact Or.inr (Or.inr ⟨s, hs, ha, hd⟩)

theorem ancestorsFrom_sound (dr : Repo) :
    ∀ (fuel : Nat) (ids : List Nat) (a : State),
      a ∈ ancestorsFrom dr fuel ids → ReachesFrom dr ids a := by
  intro fuel
  induction fuel with
  | zero =>
    intro ids a ha
    simp [ancestorsFrom] at ha
  | succ fuel ih =>
    intro ids a ha
    rcases (mem_ancestorsFrom_succ dr fuel ids a).mp ha with ⟨ha, hid⟩ | ⟨s, hs, ha, hd⟩
    · exact ReachesFrom.direct a ha hid
    · exact ReachesFrom.step s a (ih ids s hs) ha hd

theorem ancestorsFrom_mono (dr : Repo) (k : Nat) :
    ∀ (ids : List Nat) (a : State),
      a ∈ ancestorsFrom dr k ids → a ∈ ancestorsFrom dr (k + 1) ids := by
  induction k with
  | zero =>
    intro ids a ha
    simp [ancestorsFrom] at ha
  | succ k ih =>
    intro ids a ha
    rcases (mem_ancestorsFrom_succ dr k ids a).mp ha with h | ⟨s, hs, ha2, hd⟩
    · exact (mem_ancestorsFrom_succ dr (k + 1) ids a).mpr (Or.inl h)
    · exact (mem_ancestorsFrom_succ dr (k + 1) ids a).mpr (Or.inr ⟨s, ih ids s hs, ha2, hd⟩)

/-- Once the states found are closed under dependency edges, more fuel finds nothing new. -/
theorem saturated_succ (dr : Repo) (ids : List Nat) (j : Nat)
    (hsat : ∀ s t, s ∈ ancestorsFrom dr (j + 1) ids → t ∈ dr.states → t.id ∈ s.dependencies →
      t ∈ ancestorsFrom dr (j + 1) ids) :
    ∀ s t, s ∈ ancestorsFrom dr (j + 2) ids → t ∈ dr.states → t.id ∈ s.dependencies →
      t ∈ ancestorsFrom dr (j + 2) ids := by
  have hback : ∀ a, a ∈ ancestorsFrom dr (j + 2) ids → a ∈ ancestorsFrom dr (j + 1) ids := by
    intro a ha
    rcases (mem_ancestorsFrom_succ dr (j + 1) ids a).mp ha with h | ⟨s, hs, ha2, hd⟩
    · exact (mem_ancestorsFrom_succ dr j ids a).mpr (Or.inl h)
    · exact hsat s a hs ha2 hd
  intro s t hs ht hd
  exact ancestorsFrom_mono dr (j + 1) ids t (hsat s t (hback s hs) ht hd)

/-- With fuel `j + 1` the states found are closed under dependency edges, or there are at
least `j + 1` of them. -/
theorem saturated_or_card (dr : Repo) (ids : List Nat) :
    ∀ j : Nat,
      (∀ s t, s ∈ ancestorsFrom dr (j + 1) ids → t ∈ dr.states → t.id ∈ s.dependencies →
        t ∈ ancestorsFrom dr (j + 1) ids) ∨
      j + 1 ≤ (ancestorsFrom dr (j + 1) ids).toFinset.card := by
  intro j
  induction j with
  | zero =>
    by_cases h : ancestorsFrom dr 1 ids = []
    · left
      intro s t hs
      rw [h] at hs
      cases hs
    · right
      obtain ⟨x, hx⟩ := List.exists_mem_of_ne_nil _ h
      exact Finset.card_pos.mpr ⟨x, List.mem_toFinset.mpr hx⟩
  | succ j ih =>
    by_cases hsat : ∀ s t, s ∈ ancestorsFrom dr (j + 1) ids → t ∈ dr.states →
        t.id ∈ s.dependencies → t ∈ ancestorsFrom dr (j + 1) ids
    · exact Or.inl (saturated_succ dr ids j hsat)
    · right
      have hcard : j + 1 ≤ (ancestorsFrom dr (j + 1) ids).toFinset.card := by
        rcases ih with h | h
        · exact absurd h hsat
        · exact h
      push_neg at hsat
      obtain ⟨s, t, hs, ht, hd, hnot⟩ := hsat
      have hnew : t ∈ ancestorsFrom dr (j + 2) ids :=
        (mem_ancestorsFrom_succ dr (j + 1) ids t).mpr (Or.inr ⟨s, hs, ht, hd⟩)
      have hlt : (ancestorsFrom dr (j + 1) ids).toFinset.card <
          (ancestorsFrom dr (j + 2) ids).toFinset.card := by
        apply Finset.card_lt_card
        rw [Finset.ssubset_iff_of_subset]
        · exact ⟨t, List.mem_toFinset.mpr hnew, fun h => hnot (List.mem_toFinset.mp h)⟩
        · intro x hx
          exact List.mem_toFinset.mpr
            (ancestorsFrom_mono dr (j + 1) ids x (List.mem_toFinset.mp hx))
      show j + 1 + 1 ≤ (ancestorsFrom dr (j + 2) ids).toFinset.card
      omega

theorem ancestorsFrom_complete (dr : Repo) (ids : List Nat) (a : State)
    (ha : ReachesFrom dr ids a) : a ∈ ancestorsFrom dr dr.states.length ids := by
  have hmem := reachesFrom_mem dr ids a ha
  cases hn : dr.states.length with
  | zero =>
    rw [List.length_eq_zero] at hn
    rw [hn] at hmem
    cases hmem
  | succ j =>
    rcases saturated_or_card dr ids j with hsat | hcard
    · induction ha with
      | direct s hs hid => exact (mem_ancestorsFrom_succ dr j ids s).mpr (Or.inl ⟨hs, hid⟩)
      | step s t hs ht hd ih => exact hsat s t (ih (reachesFrom_mem dr ids s hs)) ht hd
    · have hsub : (ancestorsFrom dr (j + 1) ids).toFinset ⊆ dr.states.toFinset := by
        intro x hx
        exact List.mem_toFinset.mpr
          (reachesFrom_mem dr ids x (ancestorsFrom_sound dr _ ids x (List.mem_toFinset.mp hx)))
      have hle : dr.states.toFinset.card ≤ (ancestorsFrom dr (j + 1) ids).toFinset.card := by
        have := List.toFinset_card_le dr.states
        omega
      have heq := Finset.eq_of_subset_of_card_le hsub hle
      exact List.mem_toFinset.mp (heq ▸ List.mem_toFinset.mpr hmem)

/-- The ancestors that `Put` computes are exactly the stored states reached along dependency
edges: the transitive ancestors. -/
theorem ancestors_iff (dr : Repo) (state a : State) :
    a ∈ dr.ancestors state ↔ ReachesFrom dr state.dependencies a :=
  ⟨ancestorsFrom_sound dr _ _ a, ancestorsFrom_complete dr _ a⟩

/-! ## Put -/

theorem inherited_all (eval : ltl.Node → Option Identity → Repo → State → Bool) (dr : Repo)
    (state : State) :
    (((dr.ancestors state).flatMap (fun a => a.policies.filter (fun p => p.self))).all
        (fun p => eval p.formula dr.currentUser dr state) = true) ↔
      ∀ a, ReachesFrom dr state.dependencies a → ∀ p, p ∈ a.policies → p.self = true →
        eval p.formula dr.currentUser dr state = true := by
  simp only [List.all_eq_true, List.mem_flatMap, List.mem_filter]
  constructor
  · intro h a ha p hp hself
    exact h p ⟨a, (ancestors_iff dr state a).mpr ha, hp, hself⟩
  · rintro h p ⟨a, ha, hp, hself⟩
    exact h a ((ancestors_iff dr state a).mp ha) p hp hself

theorem put_of_known (eval : ltl.Node → Option Identity → Repo → State → Bool) (dr : Repo)
    (state : State) (hknown : state.dependencies.all dr.known = true) :
    dr.Put eval state =
      if ((dr.ancestors state).flatMap (fun a => a.policies.filter (fun p => p.self))).all
          (fun p => eval p.formula dr.currentUser dr state) = true then
        .ok { dr with states := dr.states ++ [{ state with author := dr.currentUser }] }
      else .error .PolicyViolation := by
  simp only [Repo.Put, hknown, if_true]

theorem put_of_unknown (eval : ltl.Node → Option Identity → Repo → State → Bool) (dr : Repo)
    (state : State) (hknown : state.dependencies.all dr.known = false) :
    dr.Put eval state = .error .UnknownDependency := by
  simp [Repo.Put, hknown]

theorem put_of_inherited (eval : ltl.Node → Option Identity → Repo → State → Bool)
    (dr : Repo) (state : State) (hknown : state.dependencies.all dr.known = true)
    (ps : List Policy)
    (hps : (dr.ancestors state).flatMap (fun a => a.policies.filter (fun p => p.self)) = ps) :
    dr.Put eval state =
      if ps.all (fun p => eval p.formula dr.currentUser dr state) = true then
        .ok { dr with states := dr.states ++ [{ state with author := dr.currentUser }] }
      else .error .PolicyViolation := by
  rw [put_of_known eval dr state hknown, hps]

/-- The scenario of `TestExamConfidentiality` under an evaluator that reads
`subject() = user(Alice)` as section 4.7 asks. -/
theorem exam_scenario (eval : ltl.Node → Option Identity → Repo → State → Bool)
    (heval : evaluatesSubject eval) :
    examRepo eval = .ok storedRepo ∧
    (∃ dr2, (storedRepo.SetCurrentUser "Alice").Put eval ((NewState 4).addDependency r2) =
      .ok dr2) ∧
    (storedRepo.SetCurrentUser "Bob").Put eval ((NewState 4).addDependency r2) =
      .error .PolicyViolation ∧
    (storedRepo.SetCurrentUser "Bob").Put eval ((NewState 4).addDependency r3) =
      .error .PolicyViolation ∧
    (∀ user : Identity, ∃ dr2, (storedRepo.SetCurrentUser user).Put eval
      ((NewState 4).addDependency r1) = .ok dr2) := by
  have hself : ∀ (dr : Repo) (state : State) (subject : Option Identity),
      (([{ self := true, formula := subjectIsAlice }] : List Policy).all
        (fun p => eval p.formula subject dr state) = true) ↔ subject = some "Alice" := by
    intro dr state subject
    simp only [List.all_cons, List.all_nil, Bool.and_true]
    rw [heval subject dr state]
    simp
  refine ⟨?_, ?_, ?_, ?_, ?_⟩
  · have h1 : (NewRepo.SetCurrentUser "Alice").Put eval r1 =
        .ok { states := [{ r1 with author := some "Alice" }], currentUser := some "Alice" } := by
      rw [put_of_inherited eval (NewRepo.SetCurrentUser "Alice") r1 rfl [] rfl]
      rfl
    have h2 : Repo.Put eval
        { states := [{ r1 with author := some "Alice" }], currentUser := some "Alice" } r2 =
        .ok { states := [{ r1 with author := some "Alice" }, { r2 with author := some "Alice" }],
              currentUser := some "Alice" } := by
      rw [put_of_inherited eval
        { states := [{ r1 with author := some "Alice" }], currentUser := some "Alice" } r2
        rfl [] rfl]
      rfl
    have h3 : Repo.Put eval
        { states := [{ r1 with author := some "Alice" }, { r2 with author := some "Alice" }],
          currentUser := some "Alice" } r3 = .ok storedRepo := by
      rw [put_of_inherited eval
        { states := [{ r1 with author := some "Alice" }, { r2 with author := some "Alice" }],
          currentUser := some "Alice" } r3
        rfl [{ self := true, formula := subjectIsAlice }] rfl,
        if_pos ((hself _ _ _).mpr rfl)]
      rfl
    simp only [examRepo, h1, Except.bind, h2, h3]
  · rw [put_of_inherited eval (storedRepo.SetCurrentUser "Alice")
      ((NewState 4).addDependency r2) rfl [{ self := true, formula := subjectIsAlice }] rfl,
      if_pos ((hself _ _ (storedRepo.SetCurrentUser "Alice").currentUser).mpr rfl)]
    exact ⟨_, rfl⟩
  · rw [put_of_inherited eval (storedRepo.SetCurrentUser "Bob")
      ((NewState 4).addDependency r2) rfl [{ self := true, formula := subjectIsAlice }] rfl,
      if_neg (fun h => absurd ((hself _ _ _).mp h) (by decide))]
  · rw [put_of_inherited eval (storedRepo.SetCurrentUser "Bob")
      ((NewState 4).addDependency r3) rfl [{ self := true, formula := subjectIsAlice }] rfl,
      if_neg (fun h => absurd ((hself _ _ _).mp h) (by decide))]
  · intro user
    rw [put_of_inherited eval (storedRepo.SetCurrentUser user)
      ((NewState 4).addDependency r1) rfl [] rfl]
    exact ⟨_, rfl⟩

theorem subjectEval_evaluatesSubject : evaluatesSubject subjectEval := by
  intro subject dr state
  cases subject with
  | none => simp [subjectEval, subjectIsAlice]
  | some user =>
    have hdata : "subject() = user(Alice)".data =
        "subject() = user(".data ++ ("Alice".data ++ ")".data) := by decide
    have hiff : "subject() = user(" ++ user ++ ")" = "subject() = user(Alice)" ↔
        user = "Alice" := by
      constructor
      · intro h
        have h2 := congrArg String.data h
        rw [hdata] at h2
        simp only [String.data_append, List.append_assoc] at h2
        have h3 := List.append_cancel_right (List.append_cancel_left h2)
        exact String.ext h3
      · intro h
        subst h
        decide
    simp only [subjectEval, subjectIsAlice, Option.map_some', Option.some.injEq]
    exact decide_eq_decide.mpr hiff

/-- C16 fails as stated: a new node that depends on the stored state `r2`, whose
self-referential policy Bob does not satisfy, and on a node that was never stored is refused
with the unknown-dependency error, not with a policy violation. -/
theorem put_unknown_dependency_first :
    ReachesFrom (storedRepo.SetCurrentUser "Bob") halfKnown.dependencies
      { r2 with author := some "Alice" } ∧
    (∃ p, p ∈ ({ r2 with author := some "Alice" } : State).policies ∧ p.self = true ∧
      subjectEval p.formula (storedRepo.SetCurrentUser "Bob").currentUser
        (storedRepo.SetCurrentUser "Bob") halfKnown = false) ∧
    (storedRepo.SetCurrentUser "Bob").Put subjectEval halfKnown = .error .UnknownDependency ∧
    (storedRepo.SetCurrentUser "Bob").Put subjectEval halfKnown ≠ .error .PolicyViolation := by
  have hput : (storedRepo.SetCurrentUser "Bob").Put subjectEval halfKnown =
      .error .UnknownDependency := put_of_unknown _ _ _ (by decide)
  refine ⟨ReachesFrom.direct _ (by decide) (by decide),
    ⟨{ self := true, formula := subjectIsAlice }, by decide, rfl, by decide⟩, hput, ?_⟩
  rw [hput]
  intro h
  cases h

/-- C16, amended: `Put` of a state with an unknown dependency fails with the
unknown-dependency error; `Put` of a state whose dependencies are all known fails with a
policy violation exactly when some transitive ancestor carries a self-referential policy that
is not satisfied with the current user as subject, and appends the state otherwise.  In the
scenario of `TestExamConfidentiality`, under every evaluator that reads
`subject() = user(Alice)` as "the subject is Alice", a node that depends on `r2` (policy
`self -> subject() = user(Alice)`) is accepted from Alice and rejected from Bob, also when it
depends on `r2` through `r3`, and a node that depends only on `r1`, whose policy is not
self-referential, is accepted from every user. -/
theorem put_spec :
    (∀ (eval : ltl.Node → Option Identity → Repo → State → Bool) (dr : Repo) (state : State),
      (state.dependencies.all dr.known = false →
        dr.Put eval state = .error .UnknownDependency) ∧
      (state.dependencies.all dr.known = true →
        (dr.Put eval state = .error .PolicyViolation ↔
          ∃ a, ReachesFrom dr state.dependencies a ∧
            ∃ p, p ∈ a.policies ∧ p.self = true ∧
              eval p.formula dr.currentUser dr state = false) ∧
        (dr.Put eval state =
            .ok { dr with states := dr.states ++ [{ state with author := dr.currentUser }] } ↔
          ∀ a, ReachesFrom dr state.dependencies a → ∀ p, p ∈ a.policies → p.self = true →
            eval p.formula dr.currentUser dr state = true))) ∧
    (∀ eval : ltl.Node → Option Identity → Repo → State → Bool, evaluatesSubject eval →
      examRepo eval = .ok storedRepo ∧
      (∃ dr2, (storedRepo.SetCurrentUser "Alice").Put eval
        ((NewState 4).addDependency r2) = .ok dr2) ∧
      (storedRepo.SetCurrentUser "Bob").Put eval ((NewState 4).addDependency r2) =
        .error .PolicyViolation ∧
      (storedRepo.SetCurrentUser "Bob").Put eval ((NewState 4).addDependency r3) =
        .error .PolicyViolation ∧
      (∀ user : Identity, ∃ dr2, (storedRepo.SetCurrentUser user).Put eval
        ((NewState 4).addDependency r1) = .ok dr2)) := by
  refine ⟨?_, exam_scenario⟩
  intro eval dr state
  refine ⟨put_of_unknown eval dr state, ?_⟩
  intro hknown
  have hall := inherited_all eval dr state
  rw [put_of_known eval dr state hknown]
  by_cases h : (((dr.ancestors state).flatMap (fun a => a.policies.filter (fun p => p.self))).all
        (fun p => eval p.formula dr.currentUser dr state) = true)
  · rw [if_pos h]
    refine ⟨⟨(fun hne => by cases hne), ?_⟩, ⟨fun _ => hall.mp h, fun _ => rfl⟩⟩
    rintro ⟨a, ha, p, hp, hself, hfalse⟩
    have := hall.mp h a ha p hp hself
    rw [hfalse] at this
    cases this
  · rw [if_neg h]
    refine ⟨⟨fun _ => ?_, fun _ => rfl⟩,
      ⟨(fun hne => by cases hne), fun hgood => absurd (hall.mpr hgood) h⟩⟩
    by_contra hnone
    apply h
    rw [hall]
    intro a ha p hp hself
    by_contra hbad
    exact hnone ⟨a, ha, p, hp, hself, by simpa using hbad⟩

theorem put_spec_witness :
    (∃ a, ReachesFrom (storedRepo.SetCurrentUser "Bob")
        ((NewState 4).addDependency r3).dependencies a ∧
      ∃ p, p ∈ a.policies ∧ p.self = true ∧
        subjectEval p.formula (storedRepo.SetCurrentUser "Bob").currentUser
          (storedRepo.SetCurrentUser "Bob") ((NewState 4).addDependency r3) = false) ∧
    (storedRepo.SetCurrentUser "Bob").Put subjectEval halfKnown = .error .UnknownDependency ∧
    examRepo subjectEval = .ok storedRepo :=
  ⟨((put_spec.1 subjectEval (storedRepo.SetCurrentUser "Bob")
      ((NewState 4).addDependency r3)).2 (by decide)).1.mp
      (put_spec.2 subjectEval subjectEval_evaluatesSubject).2.2.2.1,
   (put_spec.1 subjectEval (storedRepo.SetCurrentUser "Bob") halfKnown).1 (by decide),
   (put_spec.2 subjectEval subjectEval_evaluatesSubject).1⟩

end repo
